import Mathlib

/-!
# video-stream-api: upload validation, progress parsing and the progress store

A shallow embedding of the Go sources

* `internal/models/video.go`   (the progress store),
* `internal/service/video_service.go` (`ProcessVideo`, `GetProgress`, `transcodeVideo`),
* `pkg/ffmpeg/ffmpeg.go` (`GetVideoDuration`, `Transcode`),
* `config/config.go` (`NewDefaultConfig`),

followed by theorems about them.

Conventions.  A Go `string` is a `List Char` (valid UTF-8 text); job identifiers, which
the code never inspects, are `String`.  `int` and `int64` are `Int` (the code performs no
integer arithmetic that could wrap).  `float64` is the type `F64` below, with every
operation rounded separately to nearest-even (an implementation may fuse `x*y + z`; the
evaluations below involve exact products only, on which fusing changes nothing).  What
the Go specification leaves to the implementation, and what lives in library tables, is
a field of `GoEnv`; the general theorems hold for every `GoEnv`.  Calls to the operating
system (files, child processes) are resolved by explicit outcome records (`UploadEnv`,
`FFmpegRun`).  Logging has no effect on the state and is omitted.  A run-time panic is an
explicit result: the goroutine has no `recover`, so nothing runs after it.
-/

set_option autoImplicit false
set_option maxRecDepth 1000000

namespace VideoStream

/-! ## binary64 arithmetic -/

/-- IEEE-754 binary64 values.  `fin neg m e` is the finite number `(-1)^neg * m * 2^e`
(a zero is `fin neg 0 e`); the representation is not normalised. -/
inductive F64 where
  | nan
  | inf (neg : Bool)
  | fin (neg : Bool) (m : Nat) (e : Int)
  deriving DecidableEq

/-- Auxiliary for `bitLen`: structural recursion on a fuel argument. -/
def bitLenAux : Nat → Nat → Nat
  | 0, _ => 0
  | fuel + 1, n => if n = 0 then 0 else bitLenAux fuel (n / 2) + 1

/-- Number of binary digits of `n`: the least `k` with `n < 2^k`. -/
def bitLen (n : Nat) : Nat := bitLenAux n n

/-- Round the non-negative rational `n / d` (`d > 0`) to the nearest binary64 value, ties
to even, and attach the sign `neg`.  The quotient is scaled by `2^-e` so that it has 53
significant bits (fewer in the subnormal range, where `e = -1074`); results of magnitude
`2^1024` or more overflow to infinity. -/
def F64.roundRatio (neg : Bool) (n d : Nat) : F64 :=
  if n = 0 then .fin neg 0 0 else
  let e0 : Int := (bitLen n : Int) - (bitLen d : Int) - 53
  let e1 : Int := if (n * 2 ^ (-e0).toNat) / (d * 2 ^ e0.toNat) < 2 ^ 53 then e0 else e0 + 1
  let e : Int := if e1 < -1074 then -1074 else e1
  let num := n * 2 ^ (-e).toNat
  let den := d * 2 ^ e.toNat
  let q := num / den
  let r := num % den
  let q1 := if den < 2 * r ∨ (2 * r = den ∧ q % 2 = 1) then q + 1 else q
  if 971 < e ∨ (e = 971 ∧ 2 ^ 53 ≤ q1) then .inf neg else .fin neg q1 e

/-- Round the dyadic number `m * 2^e` to binary64. -/
def F64.round (neg : Bool) (m : Nat) (e : Int) : F64 :=
  F64.roundRatio neg (m * 2 ^ e.toNat) (2 ^ (-e).toNat)

/-- The float64 value of an untyped integer constant such as `3600` (exact). -/
def F64.ofNat (n : Nat) : F64 := .fin false n 0

/-- Conversion `float64(i)` of an `int64`. -/
def F64.ofInt (i : Int) : F64 := F64.round (decide (i < 0)) i.natAbs 0

/-- Float64 multiplication `x * y`. -/
def F64.mul : F64 → F64 → F64
  | .nan, _ => .nan
  | _, .nan => .nan
  | .inf s, .inf t => .inf (xor s t)
  | .inf s, .fin t m _ => if m = 0 then .nan else .inf (xor s t)
  | .fin s m _, .inf t => if m = 0 then .nan else .inf (xor s t)
  | .fin s m e, .fin t k f => F64.round (xor s t) (m * k) (e + f)

/-- Float64 addition `x + y`. -/
def F64.add : F64 → F64 → F64
  | .nan, _ => .nan
  | _, .nan => .nan
  | .inf s, .inf t => if s = t then .inf s else .nan
  | .inf s, .fin _ _ _ => .inf s
  | .fin _ _ _, .inf t => .inf t
  | .fin s m e, .fin t k f =>
    let g : Int := if e ≤ f then e else f
    let a : Int := (if s then -1 else 1) * ((m * 2 ^ (e - g).toNat : Nat) : Int)
    let b : Int := (if t then -1 else 1) * ((k * 2 ^ (f - g).toNat : Nat) : Int)
    let c : Int := a + b
    if c = 0 then .fin (s && t) 0 0 else F64.round (decide (c < 0)) c.natAbs g

/-- Float64 division `x / y`; division by zero yields an infinity or NaN, never a
run-time panic. -/
def F64.div : F64 → F64 → F64
  | .nan, _ => .nan
  | _, .nan => .nan
  | .inf _, .inf _ => .nan
  | .inf s, .fin t _ _ => .inf (xor s t)
  | .fin s _ _, .inf t => .fin (xor s t) 0 0
  | .fin s m e, .fin t k f =>
    if k = 0 then (if m = 0 then .nan else .inf (xor s t))
    else F64.roundRatio (xor s t) (m * 2 ^ (e - f).toNat) (k * 2 ^ (f - e).toNat)

/-- The integer part of a finite float (truncation toward zero), `none` for NaN and the
infinities. -/
def F64.trunc : F64 → Option Int
  | .nan => none
  | .inf _ => none
  | .fin s m e =>
    let t : Nat := m * 2 ^ e.toNat / 2 ^ (-e).toNat
    some (if s then -(t : Int) else (t : Int))

/-! ## Go runtime and library behaviour that is taken as given -/

/-- What the embedding takes from the Go implementation and its library tables. -/
structure GoEnv where
  /-- The call `strconv.ParseFloat(s, 64)`: the value returned and whether `err != nil`. -/
  ParseFloat : List Char → F64 × Bool
  /-- The result of converting to `int64` (or 64-bit `int`) a float that is NaN, infinite
  or outside the `int64` range; the Go specification calls it implementation-dependent. -/
  convOutOfRange : F64 → Int
  /-- The function `unicode.ToLower` on a rune that is not ASCII. -/
  unicodeToLower : Char → Char

/-- Conversions `int64(f)` and `int(f)` of a float64 (64-bit `int`). -/
def GoEnv.toInt64 (go : GoEnv) (f : F64) : Int :=
  match f.trunc with
  | some i => if -(2 ^ 63 : Int) ≤ i ∧ i < 2 ^ 63 then i else go.convOutOfRange f
  | none => go.convOutOfRange f

/-! ## package strings, path/filepath, strconv -/

/-- The predicate `unicode.IsSpace`. -/
def isSpace (c : Char) : Bool :=
  let n := c.toNat
  (9 ≤ n && n ≤ 13) || n = 32 || n = 0x85 || n = 0xA0 || n = 0x1680 ||
  (0x2000 ≤ n && n ≤ 0x200A) || n = 0x2028 || n = 0x2029 || n = 0x202F ||
  n = 0x205F || n = 0x3000

/-- Auxiliary for `Fields`: `cur` is the field being read, reversed. -/
def fieldsAux (cur : List Char) : List Char → List (List Char)
  | [] => if cur = [] then [] else [cur.reverse]
  | c :: cs =>
    if isSpace c then
      (if cur = [] then fieldsAux [] cs else cur.reverse :: fieldsAux [] cs)
    else fieldsAux (c :: cur) cs

/-- The function `strings.Fields`: the maximal runs of non-space characters. -/
def Fields (s : List Char) : List (List Char) := fieldsAux [] s

/-- Auxiliary for `Split`: `cur` is the piece being read, reversed. -/
def splitAux (sep : Char) (cur : List Char) : List Char → List (List Char)
  | [] => [cur.reverse]
  | c :: cs => if c = sep then cur.reverse :: splitAux sep [] cs else splitAux sep (c :: cur) cs

/-- The function `strings.Split(s, sep)` for a one-character separator. -/
def Split (s : List Char) (sep : Char) : List (List Char) := splitAux sep [] s

/-- The text after the first occurrence of `pat` in `s`, when there is one:
`s[strings.Index(s, pat)+len(pat):]`, and `none` when `strings.Contains(s, pat)` is false. -/
def afterFirst (pat : List Char) : List Char → Option (List Char)
  | [] => if pat = [] then some [] else none
  | c :: cs => if pat.isPrefixOf (c :: cs) then some ((c :: cs).drop pat.length)
               else afterFirst pat cs

/-- The function `strings.TrimSpace`. -/
def TrimSpace (s : List Char) : List Char :=
  ((s.dropWhile isSpace).reverse.dropWhile isSpace).reverse

/-- The function `strings.ToLower`: ASCII letters by arithmetic, other runes by the
Unicode case table. -/
def ToLower (go : GoEnv) (s : List Char) : List Char :=
  s.map fun c =>
    if c.toNat < 128 then (if 65 ≤ c.toNat ∧ c.toNat ≤ 90 then Char.ofNat (c.toNat + 32) else c)
    else go.unicodeToLower c

/-- Auxiliary for `Ext`: scans the path from its end; `acc` is the suffix read so far. -/
def extAux (acc : List Char) : List Char → List Char
  | [] => []
  | c :: cs => if c = '/' then [] else if c = '.' then c :: acc else extAux (c :: acc) cs

/-- The function `filepath.Ext` (Unix path separator): the suffix of the last path
element starting at its last dot, empty when it has no dot. -/
def Ext (path : List Char) : List Char := extAux [] path.reverse

/-- Decimal digit test of package strconv: `'0' <= c && c <= '9'`. -/
def isDigit (c : Char) : Bool := 48 ≤ c.toNat && c.toNat ≤ 57

/-- Hexadecimal letter test of package strconv: `'a' <= lower(c) && lower(c) <= 'f'`. -/
def isHexLetter (c : Char) : Bool :=
  (97 ≤ c.toNat && c.toNat ≤ 102) || (65 ≤ c.toNat && c.toNat ≤ 70)

/-- Value of a decimal digit or hexadecimal letter. -/
def digitVal (c : Char) : Nat :=
  if isDigit c then c.toNat - 48
  else if 97 ≤ c.toNat then c.toNat - 97 + 10 else c.toNat - 65 + 10

/-- The helper `commonPrefixLenIgnoreCase` of package strconv; `w` is in lower case. -/
def commonPrefixLenIgnoreCase : List Char → List Char → Nat
  | c :: cs, p :: ps =>
    let c1 := if 65 ≤ c.toNat ∧ c.toNat ≤ 90 then Char.ofNat (c.toNat + 32) else c
    if c1 = p then commonPrefixLenIgnoreCase cs ps + 1 else 0
  | _, _ => 0

/-- The helper `special` of package strconv: recognises `inf`, `infinity` (optionally
signed) and `nan` at the start of `s`; returns the value and the number of characters
consumed. -/
def special (s : List Char) : Option (F64 × Nat) :=
  let infinity (neg : Bool) (nsign : Nat) (t : List Char) : Option (F64 × Nat) :=
    let n := commonPrefixLenIgnoreCase t "infinity".toList
    let n := if 3 < n ∧ n < 8 then 3 else n
    if n = 3 ∨ n = 8 then some (.inf neg, nsign + n) else none
  match s with
  | [] => none
  | c :: cs =>
    if c = '+' then infinity false 1 cs
    else if c = '-' then infinity true 1 cs
    else if c = 'i' ∨ c = 'I' then infinity false 0 s
    else if c = 'n' ∨ c = 'N' then
      (if commonPrefixLenIgnoreCase s "nan".toList = 3 then some (.nan, 3) else none)
    else none

/-- State of the mantissa loop of `readFloat`. -/
structure Mantissa where
  sawdot : Bool
  sawdigits : Bool
  underscores : Bool
  /-- The digits read so far, as a number in the base. -/
  mant : Nat
  /-- How many of these digits follow the point. -/
  frac : Nat

/-- The mantissa loop of `readFloat`: digits, at most one point, underscores; returns the
state and the unread rest. -/
def readMantissa (hex : Bool) : List Char → Mantissa → Mantissa × List Char
  | [], st => (st, [])
  | c :: cs, st =>
    if c = '_' then readMantissa hex cs { st with underscores := true }
    else if c = '.' then
      (if st.sawdot then (st, c :: cs) else readMantissa hex cs { st with sawdot := true })
    else if isDigit c || (hex && isHexLetter c) then
      readMantissa hex cs { st with
        sawdigits := true
        mant := st.mant * (if hex then 16 else 10) + digitVal c
        frac := if st.sawdot then st.frac + 1 else st.frac }
    else (st, c :: cs)

/-- The exponent loop of `readFloat`: digits and underscores; the value stops growing
once it has reached 10000. -/
def readExpDigits : List Char → Nat → Bool → Nat × Bool × List Char
  | [], e, u => (e, u, [])
  | c :: cs, e, u =>
    if c = '_' then readExpDigits cs e true
    else if isDigit c then readExpDigits cs (if e < 10000 then e * 10 + digitVal c else e) u
    else (e, u, c :: cs)

/-- The loop of `underscoreOK`; `saw` is `'0'` after a digit or base prefix, `'_'` after
an underscore and `'!'` otherwise. -/
def underscoreLoop (hex : Bool) : List Char → Char → Bool
  | [], saw => saw != '_'
  | c :: cs, saw =>
    if isDigit c || (hex && isHexLetter c) then underscoreLoop hex cs '0'
    else if c = '_' then (if saw != '0' then false else underscoreLoop hex cs '_')
    else if saw = '_' then false
    else underscoreLoop hex cs '!'

/-- The helper `underscoreOK` of package strconv: underscores only between digits or
between a base prefix and a digit. -/
def underscoreOK (s : List Char) : Bool :=
  let s1 := match s with
    | '-' :: t => t
    | '+' :: t => t
    | _ => s
  match s1 with
  | '0' :: b :: t =>
    if b = 'b' ∨ b = 'B' ∨ b = 'o' ∨ b = 'O' then underscoreLoop false t '0'
    else if b = 'x' ∨ b = 'X' then underscoreLoop true t '0'
    else underscoreLoop false s1 '^'
  | _ => underscoreLoop false s1 '^'

/-- A number read by `readFloat`: `(-1)^neg * mant * base^exp`, the base being 2 for a
hexadecimal literal and 10 otherwise, with the unread rest of the input. -/
structure FloatLit where
  neg : Bool
  hex : Bool
  mant : Nat
  exp : Int
  rest : List Char

/-- The helper `readFloat` of package strconv, which reads a decimal or hexadecimal
floating-point literal at the start of `s`.  The mantissa is kept exactly (the library
keeps 19 digits and a truncation flag, and falls back on exact decimal arithmetic). -/
def readFloat (s : List Char) : Option FloatLit :=
  if s = [] then none else
  let (neg, s1) := match s with
    | '+' :: t => (false, t)
    | '-' :: t => (true, t)
    | _ => (false, s)
  let (hex, s2) := match s1 with
    | '0' :: x :: y :: t => if x = 'x' ∨ x = 'X' then (true, y :: t) else (false, s1)
    | _ => (false, s1)
  let (m, s3) := readMantissa hex s2 ⟨false, false, false, 0, 0⟩
  if !m.sawdigits then none else
  let fracExp : Int := if hex then -4 * (m.frac : Int) else -(m.frac : Int)
  let finish (exp : Int) (underscores : Bool) (rest : List Char) : Option FloatLit :=
    if underscores && !underscoreOK (s.take (s.length - rest.length)) then none
    else some ⟨neg, hex, m.mant, exp, rest⟩
  let isExpChar (c : Char) : Bool :=
    if hex then c = 'p' || c = 'P' else c = 'e' || c = 'E'
  match s3 with
  | c :: s4 =>
    if isExpChar c then
      match s4 with
      | [] => none
      | d :: s5 =>
        let (eneg, s6) :=
          if d = '+' then (false, s5) else if d = '-' then (true, s5) else (false, d :: s5)
        match s6 with
        | [] => none
        | f :: _ =>
          if !isDigit f then none else
          let (e, u, rest) := readExpDigits s6 0 m.underscores
          finish (fracExp + (if eneg then -(e : Int) else (e : Int))) u rest
    else if hex then none
    else finish fracExp m.underscores s3
  | [] => if hex then none else finish fracExp m.underscores []

/-- The float64 nearest to the number a `FloatLit` denotes. -/
def FloatLit.value (l : FloatLit) : F64 :=
  if l.mant = 0 then .fin l.neg 0 0
  else if l.hex then F64.round l.neg l.mant l.exp
  else F64.roundRatio l.neg (l.mant * 10 ^ l.exp.toNat) (10 ^ (-l.exp).toNat)

/-- The function `strconv.ParseFloat(s, 64)` of the Go standard library: the value returned
and whether the error is non-nil.  A syntax error returns 0; a value out of range
returns an infinity together with a range error. -/
def ParseFloat (s : List Char) : F64 × Bool :=
  match special s with
  | some (v, n) => if n = s.length then (v, false) else (.fin false 0 0, true)
  | none =>
    match readFloat s with
    | none => (.fin false 0 0, true)
    | some l =>
      if l.rest = [] then
        (match l.value with
         | .inf neg => (.inf neg, true)
         | v => (v, false))
      else (.fin false 0 0, true)

/-- Auxiliary for `Itoa`: the decimal digits of `n` in front of `acc`, by structural
recursion on a fuel argument. -/
def natDigitsAux : Nat → Nat → List Char → List Char
  | 0, _, acc => acc
  | fuel + 1, n, acc =>
    let acc1 := Char.ofNat (48 + n % 10) :: acc
    if n / 10 = 0 then acc1 else natDigitsAux fuel (n / 10) acc1

/-- The function `strconv.Itoa`, which is also what `fmt.Sprintf` prints for the verb `%d`:
the decimal digits, after a minus sign for a negative number. -/
def Itoa (i : Int) : List Char :=
  if i < 0 then '-' :: natDigitsAux (i.natAbs + 1) i.natAbs []
  else natDigitsAux (i.natAbs + 1) i.natAbs []

/-! ## config/config.go -/

/-- One entry of the rendition ladder. -/
structure Rendition where
  Width : Int
  Height : Int
  Bitrate : List Char

/-- Transcoding parameters. -/
structure FFmpegConfig where
  Renditions : List Rendition
  SegmentDuration : Int
  PresetSpeed : List Char

/-- The application configuration (the logger is omitted). -/
structure Config where
  MaxFileSize : Int
  AllowedFileTypes : List (List Char)
  FFmpegConfig : FFmpegConfig

/-- The configuration returned by `NewDefaultConfig`. -/
def NewDefaultConfig : Config where
  MaxFileSize := 500 * 1024 * 1024
  AllowedFileTypes := ["mp4".toList, "mov".toList, "avi".toList, "mkv".toList]
  FFmpegConfig :=
    { Renditions := [⟨640, 360, "800k".toList⟩]
      SegmentDuration := 4
      PresetSpeed := "fast".toList }

/-! ## internal/models/video.go -/

/-- The progress store: the Go map `store`, kept as an association list in which the
first entry for a key is the current one (the mutex has no sequential content). -/
structure Progress where
  store : List (String × Int)

/-- The store returned by `NewProgress`: an empty map. -/
def NewProgress : Progress := ⟨[]⟩

/-- The method `Progress.Update`: `p.store[videoID] = percent`. -/
def Progress.Update (p : Progress) (videoID : String) (percent : Int) : Progress :=
  ⟨(videoID, percent) :: p.store.filter fun kv => kv.1 != videoID⟩

/-- The method `Progress.Get`: `progress, ok := p.store[videoID]`; a missing key gives
the zero value and `false`. -/
def Progress.Get (p : Progress) (videoID : String) : Int × Bool :=
  match p.store.lookup videoID with
  | some progress => (progress, true)
  | none => (0, false)

/-- The store together with the history of the `Update` calls made on it, oldest first.
The history is ghost state: the code keeps no such record. -/
structure World where
  progress : Progress
  writes : List (String × Int)

/-- A call of `s.progress.Update`, recorded in the history. -/
def World.Update (w : World) (videoID : String) (percent : Int) : World :=
  ⟨w.progress.Update videoID percent, w.writes ++ [(videoID, percent)]⟩

/-- The values written for `videoID`, in the order of the writes. -/
def World.valuesWritten (w : World) (videoID : String) : List Int :=
  (w.writes.filter fun kv => kv.1 == videoID).map Prod.snd

/-! ## pkg/ffmpeg/ffmpeg.go -/

/-- The function `GetVideoDuration`; `ffprobe` is the standard output of the ffprobe
child process, `none` when `cmd.Output` returns an error.  The result is `none` when the
function returns an error. -/
def GetVideoDuration (go : GoEnv) (ffprobe : Option (List Char)) : Option Int :=
  match ffprobe with
  | none => none
  | some output =>
    let (duration, err) := go.ParseFloat (TrimSpace output)
    if err then none else some (go.toInt64 (F64.mul duration (F64.ofNat 1000)))

/-- The fields of `TranscodeOptions` that the progress loop of `Transcode` reads; `σ` is
the state the `OnProgress` callback acts on. -/
structure TranscodeOptions (σ : Type) where
  VideoID : String
  OnProgress : σ → String → Int → σ
  DurationMs : Int

/-- What the ffmpeg child process and its stderr pipe do during one call of `Transcode`. -/
structure FFmpegRun where
  /-- The call `cmd.StderrPipe()` returns an error. -/
  pipeErr : Bool
  /-- The call `cmd.Start()` returns an error. -/
  startErr : Bool
  /-- The lines `scanner.Text()` yields, in order. -/
  lines : List (List Char)
  /-- The call `scanner.Err()` is non-nil after the loop. -/
  scanErr : Bool
  /-- The call `cmd.Wait()` returns an error (non-zero exit status). -/
  waitErr : Bool

/-- The errors `Transcode` returns: "failed to create stderr pipe", "failed to start FFmpeg",
"error reading FFmpeg output", "FFmpeg process failed". -/
inductive TranscodeError where
  | stderrPipe
  | start
  | readOutput
  | processFailed
  deriving DecidableEq

/-- How a call of `Transcode` ends: it returns nil, returns an error, or panics. -/
inductive TranscodeResult where
  | ok
  | error (e : TranscodeError)
  | panic
  deriving DecidableEq

/-- What the body of the scanner loop does with one line. -/
inductive LineResult where
  /-- A run-time panic (index out of range). -/
  | panic
  /-- No call of `OnProgress`; `lastProgress` is unchanged. -/
  | skip
  /-- The call `opts.OnProgress(opts.VideoID, p)`, followed by `lastProgress = p`. -/
  | emit (p : Int)
  deriving DecidableEq

/-- Lines 196-197 of `Transcode`:
`totalSeconds := hours*3600 + minutes*60 + seconds + milliseconds/100` and
`currentMs := int64(totalSeconds * 1000)`. -/
def Transcode.currentMs (go : GoEnv) (hours minutes seconds milliseconds : F64) : Int :=
  let totalSeconds :=
    F64.add (F64.add (F64.add (F64.mul hours (F64.ofNat 3600)) (F64.mul minutes (F64.ofNat 60)))
      seconds) (F64.div milliseconds (F64.ofNat 100))
  go.toInt64 (F64.mul totalSeconds (F64.ofNat 1000))

/-- Lines 210-213 of `Transcode`:
`percentage := int((float64(currentMs) / float64(opts.DurationMs)) * 100)`, then clamped
to at most 100. -/
def Transcode.percentage (go : GoEnv) (currentMs durationMs : Int) : Int :=
  let percentage :=
    go.toInt64 (F64.mul (F64.div (F64.ofInt currentMs) (F64.ofInt durationMs)) (F64.ofNat 100))
  if percentage > 100 then 100 else percentage

/-- The body of the scanner loop of `Transcode` (lines 139-229) on one line, with the
current value of `lastProgress`. -/
def Transcode.scanLine (go : GoEnv) (durationMs lastProgress : Int) (line : List Char) :
    LineResult :=
  match afterFirst "time=".toList line with
  | none => .skip
  | some rest =>
    -- timeStr = strings.Fields(timeStr)[0]
    match Fields rest with
    | [] => .panic
    | timeStr :: _ =>
      match Split timeStr ':' with
      | [p0, p1, p2] =>
        let (hours, errH) := go.ParseFloat p0
        let (minutes, errM) := go.ParseFloat p1
        let secondsParts := Split p2 '.'
        let (seconds, errS) := go.ParseFloat (secondsParts.headD [])
        let milliseconds : F64 :=
          match secondsParts with
          | _ :: frac :: _ => (go.ParseFloat frac).1
          | _ => F64.ofNat 0
        if errH || errM || errS then .skip else
        let currentMs := Transcode.currentMs go hours minutes seconds milliseconds
        let percentage := Transcode.percentage go currentMs durationMs
        if percentage > lastProgress then .emit percentage else .skip
      | _ => .skip

/-- The scanner loop of `Transcode` (lines 138-230) over the remaining lines; the result
is the callback state and whether the loop panicked. -/
def Transcode.scan {σ : Type} (go : GoEnv) (opts : TranscodeOptions σ) :
    List (List Char) → Int → σ → σ × Bool
  | [], _, st => (st, false)
  | line :: rest, lastProgress, st =>
    match Transcode.scanLine go opts.DurationMs lastProgress line with
    | .panic => (st, true)
    | .skip => Transcode.scan go opts rest lastProgress st
    | .emit p => Transcode.scan go opts rest p (opts.OnProgress st opts.VideoID p)

/-- The method `Transcoder.Transcode` from the start of the child process on (lines
121-240); the construction of the argument list does not touch the state. -/
def Transcode {σ : Type} (go : GoEnv) (run : FFmpegRun) (opts : TranscodeOptions σ) (st : σ) :
    σ × TranscodeResult :=
  if run.pipeErr then (st, .error .stderrPipe)
  else if run.startErr then (st, .error .start)
  else
    match Transcode.scan go opts run.lines 0 st with
    | (st1, true) => (st1, .panic)
    | (st1, false) =>
      if run.scanErr then (st1, .error .readOutput)
      else if run.waitErr then (st1, .error .processFailed)
      else (st1, .ok)

/-- The percentages a call of `Transcode` passes to `OnProgress`, in order: the call is
made with a callback that records its argument. -/
def Transcode.emitted (go : GoEnv) (run : FFmpegRun) (durationMs : Int) : List Int :=
  (Transcode go run ⟨"", fun (l : List Int) _ p => l ++ [p], durationMs⟩ []).1

/-- The first loop of `Transcode` (lines 88-91): for each rendition, in order, the label
`[v%d]` of its index is appended to `filterComplex`. -/
def Transcode.filterLoop : List Rendition → Nat → List (List Char) → List (List Char)
  | [], _, filterComplex => filterComplex
  | _ :: rest, i, filterComplex =>
    Transcode.filterLoop rest (i + 1) (filterComplex ++ ["[v".toList ++ Itoa i ++ "]".toList])

/-- The second loop of `Transcode` (lines 98-104): for each rendition, in order, eight
arguments are appended to `cmdArgs`. -/
def Transcode.mapLoop : List Rendition → Nat → List (List Char) → List (List Char)
  | [], _, cmdArgs => cmdArgs
  | rendition :: rest, i, cmdArgs =>
    Transcode.mapLoop rest (i + 1)
      (cmdArgs ++
        ["-map".toList, "[v".toList ++ Itoa i ++ "]".toList,
         "-map".toList, "0:a?".toList,
         "-b:v:".toList ++ Itoa i, rendition.Bitrate,
         "-s:v:".toList ++ Itoa i,
         Itoa rendition.Width ++ "x".toList ++ Itoa rendition.Height])

/-- The argument list `cmdArgs` that `Transcode` builds (lines 76-112).  `Join` stands for
`filepath.Join`, whose path cleaning is not modelled. -/
def Transcode.cmdArgs (Join : List Char → List Char → List Char)
    (InputPath OutputDir : List Char) (Config : FFmpegConfig) : List (List Char) :=
  let cmdArgs : List (List Char) :=
    ["-y".toList, "-i".toList, InputPath, "-stats".toList, "-stats_period".toList,
     "0.1".toList, "-loglevel".toList, "info".toList, "-preset".toList, Config.PresetSpeed,
     "-g".toList, "48".toList, "-sc_threshold".toList, "0".toList]
  let filterComplex := Transcode.filterLoop Config.Renditions 0 []
  let cmdArgs := cmdArgs ++
    ["-filter_complex".toList,
     "[0:v]split=".toList ++ Itoa Config.Renditions.length ++ filterComplex.flatten]
  let cmdArgs := Transcode.mapLoop Config.Renditions 0 cmdArgs
  cmdArgs ++
    ["-f".toList, "hls".toList, "-hls_time".toList, Itoa Config.SegmentDuration,
     "-hls_playlist_type".toList, "vod".toList, "-master_pl_name".toList,
     "master.m3u8".toList, Join OutputDir "output_%v.m3u8".toList]

/-- Lines 150-197 of `Transcode`, the part of the loop body that precedes the
percentage: the value of `currentMs` computed for a line, and `none` when the body computes
none (the line has no `time=`, the body panics, the time string does not have three
parts, or one of the three checked parses fails). -/
def Transcode.lineCurrentMs (go : GoEnv) (line : List Char) : Option Int :=
  match afterFirst "time=".toList line with
  | none => none
  | some rest =>
    match Fields rest with
    | [] => none
    | timeStr :: _ =>
      match Split timeStr ':' with
      | [p0, p1, p2] =>
        let (hours, errH) := go.ParseFloat p0
        let (minutes, errM) := go.ParseFloat p1
        let secondsParts := Split p2 '.'
        let (seconds, errS) := go.ParseFloat (secondsParts.headD [])
        let milliseconds : F64 :=
          match secondsParts with
          | _ :: frac :: _ => (go.ParseFloat frac).1
          | _ => F64.ofNat 0
        if errH || errM || errS then none
        else some (Transcode.currentMs go hours minutes seconds milliseconds)
      | _ => none

/-! ## internal/service/video_service.go -/

/-- The errors `ProcessVideo` returns: "file too large", "file has no extension",
"invalid file type: %s", "failed to create file", "failed to save file",
"failed to get video duration". -/
inductive UploadError where
  | tooLarge
  | noExtension
  | invalidType (fileExt : List Char)
  | createFailed
  | saveFailed
  | durationFailed
  deriving DecidableEq

/-- Lines 37-58 of `ProcessVideo`: the checks on size and file type.  The result is the
error returned, or the extension `fileExt` with which the function goes on. -/
def ProcessVideo.validate (go : GoEnv) (cfg : Config) (filename : List Char) (fileSize : Int) :
    Except UploadError (List Char) :=
  if fileSize > cfg.MaxFileSize then .error .tooLarge else
  let fileExt := ToLower go (Ext filename)
  if fileExt = [] then .error .noExtension else
  let fileExt := fileExt.drop 1
  let validType := cfg.AllowedFileTypes.any fun allowedType => fileExt == allowedType
  if !validType then .error (.invalidType fileExt) else .ok fileExt

/-- Outcomes of the external operations of one call of `ProcessVideo`. -/
structure UploadEnv where
  /-- The identifier `uuid.New().String()`. -/
  uuid : String
  /-- The call `os.Create` returns an error. -/
  createErr : Bool
  /-- The call `io.Copy` returns an error. -/
  copyErr : Bool
  /-- Standard output of ffprobe on the saved file, `none` when it fails. -/
  ffprobe : Option (List Char)

/-- Arguments of the goroutine started by `go s.transcodeVideo(videoID, filePath, duration)`. -/
structure Spawned where
  videoID : String
  inputPath : String
  durationMs : Int

/-- Result of `ProcessVideo`: the state, the pair `(videoID, err)` it returns, and the
goroutine it has started, if any. -/
structure ProcessResult where
  world : World
  videoID : String
  err : Option UploadError
  spawned : Option Spawned

/-- The method `VideoService.ProcessVideo`. -/
def ProcessVideo (go : GoEnv) (cfg : Config) (env : UploadEnv) (filename : List Char)
    (fileSize : Int) (w : World) : ProcessResult :=
  match ProcessVideo.validate go cfg filename fileSize with
  | .error e => ⟨w, "", some e, none⟩
  | .ok fileExt =>
    let videoID := env.uuid
    let filePath := "videos/" ++ videoID ++ "." ++ String.mk fileExt
    if env.createErr then ⟨w, "", some .createFailed, none⟩
    else if env.copyErr then ⟨w, "", some .saveFailed, none⟩
    else
      match GetVideoDuration go env.ffprobe with
      | none => ⟨w, "", some .durationFailed, none⟩
      | some duration => ⟨w.Update videoID 0, videoID, none, some ⟨videoID, filePath, duration⟩⟩

/-- The method `VideoService.GetProgress`. -/
def GetProgress (w : World) (videoID : String) : Int :=
  let (progress, found) := w.progress.Get videoID
  if !found then -1 else progress

/-- The variables the `OnProgress` closure of `transcodeVideo` acts on: its captured
`lastProgress` and the store. -/
structure ClosureState where
  lastProgress : Int
  world : World

/-- The `OnProgress` closure of `transcodeVideo` (lines 122-133). -/
def transcodeVideo.OnProgress (st : ClosureState) (videoID : String) (percent : Int) :
    ClosureState :=
  if percent > st.lastProgress then ⟨percent, st.world.Update videoID percent⟩ else st

/-- The exit of `transcodeVideo` that a run takes: the final write of 100, the write of
-1 after an error, or no return at all because `Transcode` panicked. -/
inductive JobOutcome where
  | completed
  | failed
  | panic
  deriving DecidableEq

/-- The method `VideoService.transcodeVideo`; `mkdirErr` says whether `os.MkdirAll`
returns an error. -/
def transcodeVideo (go : GoEnv) (mkdirErr : Bool) (run : FFmpegRun) (videoID : String)
    (durationMs : Int) (w : World) : World × JobOutcome :=
  if mkdirErr then (w.Update videoID (-1), .failed)
  else
    match Transcode go run ⟨videoID, transcodeVideo.OnProgress, durationMs⟩ ⟨0, w⟩ with
    | (st, .panic) => (st.world, .panic)
    | (st, .error _) => (st.world.Update videoID (-1), .failed)
    | (st, .ok) => (st.world.Update videoID 100, .completed)

/-- Outcomes of the external operations of one job: those of the upload and those of
the background run. -/
structure JobEnv where
  upload : UploadEnv
  mkdirErr : Bool
  run : FFmpegRun

/-- One job from upload to the end of its background run: `ProcessVideo`, then, when it
has started the goroutine, `transcodeVideo` with the arguments it was given.  The second
component is `none` when the upload was rejected. -/
def runJob (go : GoEnv) (cfg : Config) (env : JobEnv) (filename : List Char) (fileSize : Int)
    (w : World) : World × Option JobOutcome :=
  let r := ProcessVideo go cfg env.upload filename fileSize w
  match r.spawned with
  | none => (r.world, none)
  | some job =>
    let (w1, outcome) := transcodeVideo go env.mkdirErr env.run job.videoID job.durationMs r.world
    (w1, some outcome)

/-! ## Vocabulary of the statements -/

/-- The scanner loop of `Transcode` run with a callback that records the percentage it
is given: the percentages passed to `OnProgress` from `lastProgress` on, and whether the
loop panicked. -/
def Transcode.scanEmitted (go : GoEnv) (durationMs : Int) (lines : List (List Char))
    (lastProgress : Int) : List Int × Bool :=
  Transcode.scan go ⟨"", fun (l : List Int) _ p => l ++ [p], durationMs⟩ lines lastProgress []

/-- The write with which `transcodeVideo` ends, by the exit it takes. -/
def JobOutcome.finalWrite : JobOutcome → List Int
  | .completed => [100]
  | .failed => [-1]
  | .panic => []

/-- No write follows a write of 100 or of -1. -/
def NoWriteAfterTerminal (vals : List Int) : Prop :=
  ∀ pre v post, vals = pre ++ v :: post → v = 100 ∨ v = -1 → post = []

/-- The `OnProgress` closure of `transcodeVideo` with its test `percent > lastProgress`
taken out: it stores every percentage it is given.  This is not in the source; it is what
the closure is compared with. -/
def transcodeVideo.storeAlways (st : ClosureState) (videoID : String) (percent : Int) :
    ClosureState :=
  ⟨percent, st.world.Update videoID percent⟩

/-- The eight arguments the second loop of `Transcode` is to produce for the rendition of
index `i`. -/
def renditionArgs (i : Nat) (rendition : Rendition) : List (List Char) :=
  ["-map".toList, "[v".toList ++ Itoa i ++ "]".toList,
   "-map".toList, "0:a?".toList,
   "-b:v:".toList ++ Itoa i, rendition.Bitrate,
   "-s:v:".toList ++ Itoa i,
   Itoa rendition.Width ++ "x".toList ++ Itoa rendition.Height]

/-! ## Two concrete Go implementations -/

/-- Go on amd64: the instruction CVTTSD2SQ yields the smallest `int64` for a float that
is NaN, infinite or out of range.  `ParseFloat` is the model above; `unicodeToLower` is
left as the identity, these environments being evaluated on ASCII text only. -/
def goAmd64 : GoEnv where
  ParseFloat := ParseFloat
  convOutOfRange := fun _ => -(2 ^ 63)
  unicodeToLower := fun c => c

/-- Go on arm64: the instruction FCVTZS saturates, and yields 0 for NaN. -/
def goArm64 : GoEnv where
  ParseFloat := ParseFloat
  convOutOfRange := fun f =>
    match f with
    | .nan => 0
    | .inf neg => if neg then -(2 ^ 63) else 2 ^ 63 - 1
    | .fin neg _ _ => if neg then -(2 ^ 63) else 2 ^ 63 - 1
  unicodeToLower := fun c => c

/-! ## The scanner loop -/

theorem Transcode.percentage_le (go : GoEnv) (currentMs durationMs : Int) :
    Transcode.percentage go currentMs durationMs ≤ 100 := by
  simp only [Transcode.percentage]
  split <;> omega

/-- A line that makes the loop body call `OnProgress` does so with a percentage above
`lastProgress` and at most 100. -/
theorem Transcode.scanLine_emit {go : GoEnv} {durationMs lastProgress p : Int}
    {line : List Char} (h : Transcode.scanLine go durationMs lastProgress line = .emit p) :
    lastProgress < p ∧ p ≤ 100 := by
  unfold Transcode.scanLine at h
  split at h
  · cases h
  · split at h
    · cases h
    · split at h
      · simp only at h
        split at h
        · cases h
        · split at h
          · rename_i hlt
            cases h
            exact ⟨hlt, Transcode.percentage_le _ _ _⟩
          · cases h
      · cases h

/-- The loop body panics exactly on a line that contains `time=` followed by no field. -/
theorem Transcode.scanLine_panic_iff (go : GoEnv) (durationMs lastProgress : Int)
    (line : List Char) :
    Transcode.scanLine go durationMs lastProgress line = .panic ↔
      ∃ rest, afterFirst "time=".toList line = some rest ∧ Fields rest = [] := by
  unfold Transcode.scanLine
  constructor
  · intro h
    split at h
    · cases h
    · rename_i rest hrest
      split at h
      · rename_i hf
        exact ⟨rest, hrest, hf⟩
      · split at h
        · simp only at h
          split at h
          · cases h
          · split at h <;> cases h
        · cases h
  · rintro ⟨rest, hrest, hf⟩
    rw [hrest]
    simp only [hf]

/-- The recording callback only appends: the loop started on `acc` yields `acc`
followed by what it yields when started on the empty list. -/
theorem Transcode.scan_record (go : GoEnv) (durationMs : Int)
    (lines : List (List Char)) (lastProgress : Int) (acc : List Int) :
    Transcode.scan go ⟨"", fun (l : List Int) _ p => l ++ [p], durationMs⟩ lines lastProgress acc
      = (acc ++ (Transcode.scanEmitted go durationMs lines lastProgress).1,
         (Transcode.scanEmitted go durationMs lines lastProgress).2) := by
  induction lines generalizing lastProgress acc with
  | nil => simp [Transcode.scanEmitted, Transcode.scan]
  | cons line rest ih =>
    unfold Transcode.scanEmitted
    unfold Transcode.scan
    cases hl : Transcode.scanLine go durationMs lastProgress line with
    | panic => simp
    | skip =>
      simp only
      rw [ih lastProgress acc, ih lastProgress []]
      simp
    | emit p =>
      simp only
      rw [ih p (acc ++ [p]), ih p ([] ++ [p])]
      simp

theorem Transcode.scanEmitted_nil (go : GoEnv) (durationMs lastProgress : Int) :
    Transcode.scanEmitted go durationMs [] lastProgress = ([], false) := rfl

/-- One step of the recorded loop. -/
theorem Transcode.scanEmitted_cons (go : GoEnv) (durationMs lastProgress : Int)
    (line : List Char) (rest : List (List Char)) :
    Transcode.scanEmitted go durationMs (line :: rest) lastProgress =
      match Transcode.scanLine go durationMs lastProgress line with
      | .panic => ([], true)
      | .skip => Transcode.scanEmitted go durationMs rest lastProgress
      | .emit p => (p :: (Transcode.scanEmitted go durationMs rest p).1,
                    (Transcode.scanEmitted go durationMs rest p).2) := by
  conv_lhs => unfold Transcode.scanEmitted; unfold Transcode.scan
  cases hl : Transcode.scanLine go durationMs lastProgress line with
  | panic => rfl
  | skip => rfl
  | emit p =>
    simp only
    rw [Transcode.scan_record]
    simp

/-- Every percentage the loop emits is above the `lastProgress` it started from and at
most 100. -/
theorem Transcode.scanEmitted_bounds (go : GoEnv) (durationMs : Int)
    (lines : List (List Char)) (lastProgress : Int) :
    ∀ x ∈ (Transcode.scanEmitted go durationMs lines lastProgress).1,
      lastProgress < x ∧ x ≤ 100 := by
  induction lines generalizing lastProgress with
  | nil => intro x hx; simp [Transcode.scanEmitted_nil] at hx
  | cons line rest ih =>
    intro x hx
    rw [Transcode.scanEmitted_cons] at hx
    cases hl : Transcode.scanLine go durationMs lastProgress line with
    | panic => rw [hl] at hx; simp at hx
    | skip => rw [hl] at hx; exact ih lastProgress x hx
    | emit p =>
      rw [hl] at hx
      have hp := Transcode.scanLine_emit hl
      rcases List.mem_cons.mp hx with rfl | hx1
      · exact hp
      · have := ih p x hx1
        exact ⟨by omega, this.2⟩

/-- The percentages the loop emits are strictly increasing. -/
theorem Transcode.scanEmitted_pairwise (go : GoEnv) (durationMs : Int)
    (lines : List (List Char)) (lastProgress : Int) :
    (Transcode.scanEmitted go durationMs lines lastProgress).1.Pairwise (· < ·) := by
  induction lines generalizing lastProgress with
  | nil => simp [Transcode.scanEmitted_nil]
  | cons line rest ih =>
    rw [Transcode.scanEmitted_cons]
    cases hl : Transcode.scanLine go durationMs lastProgress line with
    | panic => simp
    | skip => exact ih lastProgress
    | emit p =>
      simp only [List.pairwise_cons]
      exact ⟨fun x hx => (Transcode.scanEmitted_bounds go durationMs rest p x hx).1, ih p⟩

/-- The loop with any callback: the callback is applied, in order, to the percentages
the recorded loop emits. -/
theorem Transcode.scan_eq_foldl {σ : Type} (go : GoEnv) (opts : TranscodeOptions σ)
    (lines : List (List Char)) (lastProgress : Int) (st : σ) :
    Transcode.scan go opts lines lastProgress st =
      ((Transcode.scanEmitted go opts.DurationMs lines lastProgress).1.foldl
          (fun s p => opts.OnProgress s opts.VideoID p) st,
       (Transcode.scanEmitted go opts.DurationMs lines lastProgress).2) := by
  induction lines generalizing lastProgress st with
  | nil => simp [Transcode.scanEmitted_nil, Transcode.scan]
  | cons line rest ih =>
    rw [Transcode.scanEmitted_cons]
    unfold Transcode.scan
    cases hl : Transcode.scanLine go opts.DurationMs lastProgress line with
    | panic => simp
    | skip => simp only; rw [ih]
    | emit p => simp only; rw [ih]; simp

/-! ## The progress store -/

theorem lookup_filter_ne (l : List (String × Int)) (a b : String) (h : b ≠ a) :
    (l.filter fun kv => kv.1 != a).lookup b = l.lookup b := by
  induction l with
  | nil => rfl
  | cons kv t ih =>
    obtain ⟨k, v⟩ := kv
    by_cases hk : k = a
    · subst hk
      have hb : (b == k) = false := by simpa using h
      simp [List.filter, List.lookup, hb, ih]
    · have hka : (k != a) = true := by simpa using hk
      simp only [List.filter, hka, List.lookup]
      rw [ih]

theorem Progress.get_update (p : Progress) (a b : String) (v : Int) :
    (p.Update a v).Get b = if b = a then (v, true) else p.Get b := by
  unfold Progress.Update Progress.Get
  by_cases h : b = a
  · subst h; simp [List.lookup]
  · have hb : (b == a) = false := by simpa using h
    simp only [List.lookup, hb, h, if_false]
    rw [lookup_filter_ne _ _ _ h]

/-! ## The closure of `transcodeVideo` and the history of writes -/

theorem World.writes_foldl (videoID : String) (es : List Int) (w : World) :
    (es.foldl (fun w p => w.Update videoID p) w).writes
      = w.writes ++ es.map fun p => (videoID, p) := by
  induction es generalizing w with
  | nil => simp
  | cons x xs ih =>
    rw [List.foldl_cons, ih]
    simp [World.Update]

/-- On a strictly increasing sequence that starts above its `lastProgress`, the closure
stores every percentage. -/
theorem transcodeVideo.OnProgress_foldl (videoID : String) (es : List Int) (last : Int)
    (w : World) (hgt : ∀ x ∈ es, last < x) (hinc : es.Pairwise (· < ·)) :
    (es.foldl (fun s p => transcodeVideo.OnProgress s videoID p) ⟨last, w⟩).world
      = es.foldl (fun w p => w.Update videoID p) w := by
  induction es generalizing last w with
  | nil => rfl
  | cons x xs ih =>
    have hx : last < x := hgt x (List.mem_cons_self _ _)
    have hstep : transcodeVideo.OnProgress ⟨last, w⟩ videoID x = ⟨x, w.Update videoID x⟩ := by
      simp [transcodeVideo.OnProgress, hx]
    simp only [List.foldl_cons, hstep]
    exact ih x (w.Update videoID x) (fun y hy => List.rel_of_pairwise_cons hinc hy)
      (List.Pairwise.of_cons hinc)

/-- The state in which `Transcode` leaves its callback: the callback has been applied,
in order, to a strictly increasing sequence of percentages within 1..100. -/
theorem Transcode_state {σ : Type} (go : GoEnv) (run : FFmpegRun) (opts : TranscodeOptions σ)
    (st : σ) :
    ∃ es : List Int, es.Pairwise (· < ·) ∧ (∀ x ∈ es, 0 < x ∧ x ≤ 100) ∧
      (Transcode go run opts st).1 = es.foldl (fun s p => opts.OnProgress s opts.VideoID p) st := by
  unfold Transcode
  by_cases hp : run.pipeErr = true
  · exact ⟨[], List.Pairwise.nil, by simp, by simp [hp]⟩
  · by_cases hs : run.startErr = true
    · exact ⟨[], List.Pairwise.nil, by simp, by simp [hp, hs]⟩
    · refine ⟨(Transcode.scanEmitted go opts.DurationMs run.lines 0).1,
        Transcode.scanEmitted_pairwise go opts.DurationMs run.lines 0,
        Transcode.scanEmitted_bounds go opts.DurationMs run.lines 0, ?_⟩
      rw [Transcode.scan_eq_foldl]
      cases (Transcode.scanEmitted go opts.DurationMs run.lines 0).2 <;>
        cases run.scanErr <;> cases run.waitErr <;> simp [hp, hs]

/-- The history of writes after `transcodeVideo`: the history before it, then a strictly
increasing sequence of percentages within 1..100, then the final write of the exit it
takes. -/
theorem transcodeVideo_writes (go : GoEnv) (mkdirErr : Bool) (run : FFmpegRun)
    (videoID : String) (durationMs : Int) (w : World) :
    ∃ es : List Int, es.Pairwise (· < ·) ∧ (∀ x ∈ es, 0 < x ∧ x ≤ 100) ∧
      (transcodeVideo go mkdirErr run videoID durationMs w).1.writes
        = w.writes ++ (es.map fun p => (videoID, p))
            ++ ((transcodeVideo go mkdirErr run videoID durationMs w).2.finalWrite.map
                  fun p => (videoID, p)) := by
  unfold transcodeVideo
  by_cases hm : mkdirErr = true
  · refine ⟨[], List.Pairwise.nil, by simp, ?_⟩
    simp [hm, World.Update, JobOutcome.finalWrite]
  · obtain ⟨es, hinc, hb, hst⟩ :=
      Transcode_state go run ⟨videoID, transcodeVideo.OnProgress, durationMs⟩ ⟨0, w⟩
    refine ⟨es, hinc, hb, ?_⟩
    have hw := transcodeVideo.OnProgress_foldl videoID es 0 w (fun x hx => (hb x hx).1) hinc
    simp only at hst
    rw [← hst] at hw
    have hw2 := congrArg World.writes hw
    rw [World.writes_foldl] at hw2
    clear hw hst
    simp only [hm, if_false, Bool.false_eq_true]
    generalize Transcode go run ⟨videoID, transcodeVideo.OnProgress, durationMs⟩ ⟨0, w⟩ = T at hw2
    obtain ⟨st1, res⟩ := T
    simp only at hw2
    cases res <;> simp [JobOutcome.finalWrite, World.Update, hw2]

theorem World.valuesWritten_map (w : World) (videoID : String) (l : List Int)
    (h : w.writes = l.map fun x => (videoID, x)) : w.valuesWritten videoID = l := by
  unfold World.valuesWritten
  rw [h]
  clear h
  induction l with
  | nil => rfl
  | cons x xs ih => simpa [List.filter] using ih

/-- The two ways `ProcessVideo` ends: a rejection that leaves the state alone and starts
nothing, or the write of 0 under the fresh identifier and the start of the goroutine. -/
theorem ProcessVideo_cases (go : GoEnv) (cfg : Config) (env : UploadEnv) (filename : List Char)
    (fileSize : Int) (w : World) :
    (∃ e, ProcessVideo go cfg env filename fileSize w = ⟨w, "", some e, none⟩) ∨
    (∃ path duration, ProcessVideo go cfg env filename fileSize w =
      ⟨w.Update env.uuid 0, env.uuid, none, some ⟨env.uuid, path, duration⟩⟩) := by
  unfold ProcessVideo
  cases ProcessVideo.validate go cfg filename fileSize with
  | error e => exact Or.inl ⟨e, rfl⟩
  | ok fileExt =>
    simp only
    by_cases hc : env.createErr = true
    · exact Or.inl ⟨.createFailed, by simp [hc]⟩
    · by_cases hs : env.copyErr = true
      · exact Or.inl ⟨.saveFailed, by simp [hc, hs]⟩
      · cases hd : GetVideoDuration go env.ffprobe with
        | none => exact Or.inl ⟨.durationFailed, by simp [hc, hs]⟩
        | some d =>
          exact Or.inr ⟨"videos/" ++ env.uuid ++ "." ++ String.mk fileExt, d, by simp [hc, hs]⟩

/-- The values one job writes under its identifier, from upload to the end of the
background run: nothing when the upload is rejected; otherwise 0, then a strictly
increasing sequence of percentages within 1..100, then the final write. -/
theorem runJob_values (go : GoEnv) (cfg : Config) (env : JobEnv) (filename : List Char)
    (fileSize : Int) (p : Progress) :
    ((runJob go cfg env filename fileSize ⟨p, []⟩).2 = none ∧
      (runJob go cfg env filename fileSize ⟨p, []⟩).1.writes = []) ∨
    ∃ (o : JobOutcome) (es : List Int),
      (runJob go cfg env filename fileSize ⟨p, []⟩).2 = some o ∧
      es.Pairwise (· < ·) ∧ (∀ x ∈ es, 0 < x ∧ x ≤ 100) ∧
      (runJob go cfg env filename fileSize ⟨p, []⟩).1.valuesWritten env.upload.uuid
        = 0 :: es ++ o.finalWrite := by
  unfold runJob
  rcases ProcessVideo_cases go cfg env.upload filename fileSize ⟨p, []⟩ with ⟨e, he⟩ | ⟨path, d, hd⟩
  · left
    simp [he]
  · right
    obtain ⟨es, hinc, hb, hw⟩ := transcodeVideo_writes go env.mkdirErr env.run env.upload.uuid d
      (World.Update ⟨p, []⟩ env.upload.uuid 0)
    refine ⟨(transcodeVideo go env.mkdirErr env.run env.upload.uuid d
      (World.Update ⟨p, []⟩ env.upload.uuid 0)).2, es, by simp [hd], hinc, hb, ?_⟩
    simp only [hd]
    apply World.valuesWritten_map
    rw [hw]
    simp [World.Update]

/-- In a strictly increasing run of percentages within 1..100 followed by a final write,
nothing follows a -1, and what follows a 100 is at most the final write. -/
theorem after_terminal (es : List Int) (o : JobOutcome) (hinc : es.Pairwise (· < ·))
    (hb : ∀ x ∈ es, 0 < x ∧ x ≤ 100) (pre : List Int) (v : Int) (post : List Int)
    (h : es ++ o.finalWrite = pre ++ v :: post) :
    (v = -1 → post = []) ∧ (v = 100 → post = [] ∨ post = [100] ∨ post = [-1]) := by
  induction es generalizing pre with
  | nil =>
    cases pre with
    | nil =>
      cases o <;> simp [JobOutcome.finalWrite] at h <;> simp [h]
    | cons a t =>
      cases o <;> simp [JobOutcome.finalWrite] at h
  | cons x xs ih =>
    have hx := hb x (List.mem_cons_self _ _)
    cases pre with
    | nil =>
      simp only [List.cons_append, List.nil_append, List.cons.injEq] at h
      obtain ⟨hxv, hpost⟩ := h
      subst hxv
      constructor
      · intro hv; omega
      · intro hv
        have hxs : xs = [] := by
          cases xs with
          | nil => rfl
          | cons y ys =>
            have h1 := List.rel_of_pairwise_cons hinc (List.mem_cons_self y ys)
            have h2 := (hb y (List.mem_cons_of_mem _ (List.mem_cons_self y ys))).2
            omega
        subst hxs
        rw [← hpost]
        cases o <;> simp [JobOutcome.finalWrite]
    | cons a t =>
      simp only [List.cons_append, List.cons.injEq] at h
      exact ih (List.Pairwise.of_cons hinc) (fun y hy => hb y (List.mem_cons_of_mem _ hy)) t h.2

/-- An in-range conversion does not depend on the implementation. -/
theorem GoEnv.toInt64_of_trunc (go : GoEnv) (f : F64) (i : Int) (h : f.trunc = some i)
    (hlo : -(2 ^ 63 : Int) ≤ i) (hhi : i < 2 ^ 63) : go.toInt64 f = i := by
  unfold GoEnv.toInt64
  rw [h]
  exact if_pos ⟨hlo, hhi⟩

/-! ## The exits of `transcodeVideo`, the validation phase, a zero duration -/

/-- The error exits of `transcodeVideo` in terms of what the environment does: the output
directory cannot be made, the pipe or the child process cannot be started, or the loop
reaches the end of the output and then reading it or waiting for the process reports an
error. -/
theorem transcodeVideo_failed_iff (go : GoEnv) (mkdirErr : Bool) (run : FFmpegRun)
    (videoID : String) (durationMs : Int) (w : World) :
    (transcodeVideo go mkdirErr run videoID durationMs w).2 = .failed ↔
      mkdirErr = true ∨ run.pipeErr = true ∨ run.startErr = true ∨
        ((Transcode.scanEmitted go durationMs run.lines 0).2 = false ∧
          (run.scanErr = true ∨ run.waitErr = true)) := by
  unfold transcodeVideo Transcode
  rw [Transcode.scan_eq_foldl]
  cases mkdirErr <;> cases run.pipeErr <;> cases run.startErr <;>
    cases (Transcode.scanEmitted go durationMs run.lines 0).2 <;>
    cases run.scanErr <;> cases run.waitErr <;> simp

/-- The last exit of `transcodeVideo` in terms of what the environment does: every step
succeeds and the loop reaches the end of the output. -/
theorem transcodeVideo_completed_iff (go : GoEnv) (mkdirErr : Bool) (run : FFmpegRun)
    (videoID : String) (durationMs : Int) (w : World) :
    (transcodeVideo go mkdirErr run videoID durationMs w).2 = .completed ↔
      mkdirErr = false ∧ run.pipeErr = false ∧ run.startErr = false ∧
        (Transcode.scanEmitted go durationMs run.lines 0).2 = false ∧
        run.scanErr = false ∧ run.waitErr = false := by
  unfold transcodeVideo Transcode
  rw [Transcode.scan_eq_foldl]
  cases mkdirErr <;> cases run.pipeErr <;> cases run.startErr <;>
    cases (Transcode.scanEmitted go durationMs run.lines 0).2 <;>
    cases run.scanErr <;> cases run.waitErr <;> simp

/-- The order of the checks of `ProcessVideo`: size, then emptiness of `filepath.Ext` of the
name (the dot included), then membership of the lower-cased extension without its dot in
the allow-list. -/
theorem ProcessVideo.validate_eq (go : GoEnv) (cfg : Config) (filename : List Char)
    (fileSize : Int) :
    ProcessVideo.validate go cfg filename fileSize =
      if fileSize > cfg.MaxFileSize then .error .tooLarge
      else if Ext filename = [] then .error .noExtension
      else if (ToLower go (Ext filename)).drop 1 ∈ cfg.AllowedFileTypes then
        .ok ((ToLower go (Ext filename)).drop 1)
      else .error (.invalidType ((ToLower go (Ext filename)).drop 1)) := by
  unfold ProcessVideo.validate
  have hnil : ToLower go (Ext filename) = [] ↔ Ext filename = [] := by
    unfold ToLower
    exact List.map_eq_nil_iff
  have hany : ∀ (x : List Char) (l : List (List Char)),
      (l.any fun allowedType => x == allowedType) = true ↔ x ∈ l := by
    intro x l
    simp [List.any_eq_true]
  by_cases h1 : fileSize > cfg.MaxFileSize
  · simp [h1]
  · by_cases h2 : Ext filename = []
    · have h3 := hnil.mpr h2
      simp only [h1, h3, if_false, if_true]
      rw [if_pos h2]
    · have h3 : ¬ ToLower go (Ext filename) = [] := fun h => h2 (hnil.mp h)
      by_cases h4 : (ToLower go (Ext filename)).drop 1 ∈ cfg.AllowedFileTypes
      · have h5 := (hany _ _).mpr h4
        simp only [h1, h2, h3, h4, h5, if_false, if_true, Bool.not_true, Bool.false_eq_true]
      · have h5 : (cfg.AllowedFileTypes.any fun allowedType =>
            (ToLower go (Ext filename)).drop 1 == allowedType) = false := by
          rw [Bool.eq_false_iff]
          exact fun h => h4 ((hany _ _).mp h)
        simp only [h1, h2, h3, h4, h5, if_false, if_true, Bool.not_false]

theorem ite_ne_of {α : Type} {c : Prop} [Decidable c] {a b x : α} (ha : a ≠ x) (hb : b ≠ x) :
    (if c then a else b) ≠ x := by
  split <;> assumption

/-- Rounding never yields NaN. -/
theorem F64.roundRatio_ne_nan (neg : Bool) (n d : Nat) : F64.roundRatio neg n d ≠ .nan := by
  unfold F64.roundRatio
  exact ite_ne_of (by simp) (ite_ne_of (by simp) (by simp))

/-- The conversion `float64(i)` never yields NaN. -/
theorem F64.ofInt_ne_nan (i : Int) : F64.ofInt i ≠ .nan :=
  F64.roundRatio_ne_nan _ _ _

/-- The float64 of the integer 0 is the zero `fin false 0 0`. -/
theorem F64.ofInt_zero : F64.ofInt 0 = .fin false 0 0 := by decide

/-- With total duration 0 the quotient is an infinity or NaN, and the percentage is
whatever the implementation makes of converting it, clamped to at most 100. -/
theorem Transcode.percentage_zero_duration (go : GoEnv) (currentMs : Int) :
    ∃ f : F64, f.trunc = none ∧
      Transcode.percentage go currentMs 0 =
        if go.convOutOfRange f > 100 then 100 else go.convOutOfRange f := by
  have hz := F64.ofInt_zero
  have hn := F64.ofInt_ne_nan currentMs
  refine ⟨F64.mul (F64.div (F64.ofInt currentMs) (F64.ofInt 0)) (F64.ofNat 100), ?_, ?_⟩
  · rw [hz]
    cases hc : F64.ofInt currentMs with
    | nan => exact absurd hc hn
    | inf s => simp [F64.div, F64.mul, F64.ofNat, F64.trunc]
    | fin s m e =>
      by_cases hm : m = 0
      · simp [F64.div, F64.mul, F64.trunc, hm]
      · simp [F64.div, F64.mul, F64.ofNat, F64.trunc, hm]
  · have ht : (F64.mul (F64.div (F64.ofInt currentMs) (F64.ofInt 0)) (F64.ofNat 100)).trunc
        = none := by
      rw [hz]
      cases hc : F64.ofInt currentMs with
      | nan => exact absurd hc hn
      | inf s => simp [F64.div, F64.mul, F64.ofNat, F64.trunc]
      | fin s m e =>
        by_cases hm : m = 0
        · simp [F64.div, F64.mul, F64.trunc, hm]
        · simp [F64.div, F64.mul, F64.ofNat, F64.trunc, hm]
    simp only [Transcode.percentage, GoEnv.toInt64, ht]

/-- On amd64, where the conversion of an infinity or NaN is the smallest integer, a total
duration of 0 makes the loop emit nothing, whatever the lines: every percentage is
negative.  The absence of emissions comes from the conversion, not from a guard. -/
theorem Transcode.scanEmitted_zero_duration_amd64 (lines : List (List Char))
    (lastProgress : Int) (hl : 0 ≤ lastProgress) :
    (Transcode.scanEmitted goAmd64 0 lines lastProgress).1 = [] := by
  induction lines with
  | nil => rfl
  | cons line rest ih =>
    rw [Transcode.scanEmitted_cons]
    cases hs : Transcode.scanLine goAmd64 0 lastProgress line with
    | panic => rfl
    | skip => exact ih
    | emit p =>
      exfalso
      unfold Transcode.scanLine at hs
      split at hs
      · cases hs
      · split at hs
        · cases hs
        · split at hs
          · simp only at hs
            split at hs
            · cases hs
            · split at hs
              · rename_i hlt
                obtain ⟨f, _, hf⟩ := Transcode.percentage_zero_duration goAmd64
                  (Transcode.currentMs goAmd64 _ _ _ _)
                rw [hf] at hlt
                simp [goAmd64] at hlt
                omega
              · cases hs
          · cases hs

/-! ## The claims -/

/-- C1 (code defect): for the filename `movie.`, whose extension is a bare dot, the
validation phase of `ProcessVideo` does not answer "file has no extension".
`filepath.Ext` yields `.`, which passes the emptiness test made before the dot is
stripped; the stripped extension is empty.  With the default configuration the call fails
with "invalid file type: " instead, and with an allow-list that holds the empty string it
accepts. -/
theorem C1_bare_dot_is_not_missing_extension (go : GoEnv) :
    ProcessVideo.validate go NewDefaultConfig "movie.".toList 1024
        = .error (.invalidType [])
      ∧ ProcessVideo.validate go { NewDefaultConfig with AllowedFileTypes := [[]] }
          "movie.".toList 1024 = .ok [] :=
  ⟨rfl, rfl⟩

/-- C2 (code defect): on the line `time=`, and on a line in which `time=` is followed
only by white space, the loop body of `Transcode` panics: `strings.Fields` returns an
empty slice and the code takes its element 0.  This holds for every total duration and
every value of `lastProgress`. -/
theorem C2_time_without_field_panics (go : GoEnv) (durationMs lastProgress : Int) :
    Transcode.scanLine go durationMs lastProgress "time=".toList = .panic
      ∧ Transcode.scanLine go durationMs lastProgress "size=  256kB time=  ".toList = .panic :=
  ⟨(Transcode.scanLine_panic_iff go durationMs lastProgress _).mpr ⟨[], by decide, by decide⟩,
   (Transcode.scanLine_panic_iff go durationMs lastProgress _).mpr
     ⟨"  ".toList, by decide, by decide⟩⟩

/-- C3 (code defect): with total duration 0 the division is not guarded.  The line
`time=` makes `Transcode` panic whatever the Go implementation; on the line
`time=00:00:05.00` the quotient is +Inf, whose conversion to `int` is left to the
implementation: where it saturates (arm64) the percentage is clamped to 100 and
`OnProgress` is called with 100, where it yields the smallest integer (amd64) nothing is
emitted. -/
theorem C3_zero_duration_unguarded :
    (∀ go : GoEnv,
        (Transcode go ⟨false, false, ["time=".toList], false, false⟩
          ⟨"job", fun (l : List Int) _ p => l ++ [p], 0⟩ []).2 = .panic)
      ∧ Transcode.emitted goArm64 ⟨false, false, ["time=00:00:05.00".toList], false, false⟩ 0
          = [100]
      ∧ Transcode.emitted goAmd64 ⟨false, false, ["time=00:00:05.00".toList], false, false⟩ 0
          = [] :=
  ⟨fun _ => rfl, by decide, by decide⟩

/-- C4: for every Go implementation, every behaviour of the child process and every total
duration, the percentages `Transcode` passes to `OnProgress` are strictly increasing, each
one being above the one emitted before it.  With total duration 10000 ms the lines
`time=00:00:04.00` and `time=00:00:03.50` (40 and 35 percent) cause the single emission
40, and `transcodeVideo` writes 40 and then only its final 100 to the store. -/
theorem C4_emitted_strictly_increasing :
    (∀ (go : GoEnv) (run : FFmpegRun) (durationMs : Int),
        (Transcode.emitted go run durationMs).Pairwise (· < ·))
      ∧ Transcode.emitted goAmd64
          ⟨false, false, ["time=00:00:04.00".toList, "time=00:00:03.50".toList], false, false⟩
          10000 = [40]
      ∧ (transcodeVideo goAmd64 false
          ⟨false, false, ["time=00:00:04.00".toList, "time=00:00:03.50".toList], false, false⟩
          "job" 10000 ⟨NewProgress, []⟩).1.writes = [("job", 40), ("job", 100)] := by
  refine ⟨?_, by decide, by decide⟩
  intro go run durationMs
  obtain ⟨es, hinc, _, hst⟩ :=
    Transcode_state go run ⟨"", fun (l : List Int) _ p => l ++ [p], durationMs⟩ []
  unfold Transcode.emitted
  rw [hst]
  have hfold : ∀ (l acc : List Int), l.foldl (fun s p => s ++ [p]) acc = acc ++ l := by
    intro l
    induction l with
    | nil => simp
    | cons x xs ih => intro acc; simp [ih]
  simp only [hfold, List.nil_append]
  exact hinc

/-- C5 (code defect): the percentage is computed in float64, not in exact arithmetic.
For 290 ms elapsed of 1000 ms the quotient 0.29 times 100 rounds to
28.999999999999996, which `int` truncates to 28, where the exact formula
`min(100, floor(290 * 100 / 1000))` gives 29; the line `time=00:00:00.29` yields 28.
The line `time=00:00:05.0` with total duration 10000 ms does yield 50. -/
theorem C5_percentage_is_float_arithmetic :
    (∀ go : GoEnv, Transcode.percentage go 290 1000 = 28)
      ∧ min (100 : Int) (290 * 100 / 1000) = 29
      ∧ Transcode.scanLine goAmd64 1000 0 "time=00:00:00.29".toList = .emit 28
      ∧ Transcode.scanLine goAmd64 10000 0 "time=00:00:05.0".toList = .emit 50 := by
  refine ⟨?_, by decide, by decide, by decide⟩
  intro go
  have h : go.toInt64 (F64.mul (F64.div (F64.ofInt 290) (F64.ofInt 1000)) (F64.ofNat 100)) = 28 :=
    go.toInt64_of_trunc _ 28 (by decide) (by decide) (by decide)
  simp [Transcode.percentage, h]

/-- C6 (as stated, refuted): with total duration 10000 ms, the line `time=00:00:10.00` and
a child process that exits non-zero, the values written for the job are 0, 100, -1: the
progress path writes 100 and the failure write of -1 follows it. -/
theorem C6_write_after_100 :
    ¬ NoWriteAfterTerminal
      (World.valuesWritten
        (runJob goAmd64 NewDefaultConfig
          ⟨⟨"job", false, false, some "10.000000\n".toList⟩, false,
            ⟨false, false, ["time=00:00:10.00".toList], false, true⟩⟩
          "movie.mp4".toList 1024 ⟨NewProgress, []⟩).1 "job") := by
  have hv : World.valuesWritten
      (runJob goAmd64 NewDefaultConfig
        ⟨⟨"job", false, false, some "10.000000\n".toList⟩, false,
          ⟨false, false, ["time=00:00:10.00".toList], false, true⟩⟩
        "movie.mp4".toList 1024 ⟨NewProgress, []⟩).1 "job" = [0, 100, -1] := by decide
  rw [hv]
  intro h
  have h1 := h [0] 100 [-1] rfl (Or.inl rfl)
  simp at h1

/-- C6 (amended): in the values one job writes under its identifier, from the 0 of
`ProcessVideo` to the end of `transcodeVideo`, nothing follows a write of -1, and a write of
100 is followed by nothing or by exactly one more write, the final write of `transcodeVideo`
(100 again after success, -1 after an error). -/
theorem C6_final_write_is_last (go : GoEnv) (cfg : Config) (env : JobEnv)
    (filename : List Char) (fileSize : Int) (p : Progress) (pre : List Int) (v : Int)
    (post : List Int)
    (h : World.valuesWritten (runJob go cfg env filename fileSize ⟨p, []⟩).1 env.upload.uuid
          = pre ++ v :: post) :
    (v = -1 → post = []) ∧ (v = 100 → post = [] ∨ post = [100] ∨ post = [-1]) := by
  rcases runJob_values go cfg env filename fileSize p with ⟨_, hw⟩ | ⟨o, es, _, hinc, hb, hvals⟩
  · have hnil : World.valuesWritten (runJob go cfg env filename fileSize ⟨p, []⟩).1
        env.upload.uuid = [] := by
      unfold World.valuesWritten
      rw [hw]
      rfl
    rw [hnil] at h
    simp at h
  · rw [hvals] at h
    cases pre with
    | nil =>
      simp only [List.cons_append, List.nil_append, List.cons.injEq] at h
      obtain ⟨hv, _⟩ := h
      subst hv
      constructor <;> intro hv <;> omega
    | cons a t =>
      simp only [List.cons_append, List.cons.injEq] at h
      exact after_terminal es o hinc hb t v post h.2

/-- C6 (amended), at a concrete run: the write of 100 made by the progress path is
followed by the single write of -1. -/
theorem C6_final_write_is_last_witness :
    World.valuesWritten
        (runJob goAmd64 NewDefaultConfig
          ⟨⟨"job", false, false, some "10.000000\n".toList⟩, false,
            ⟨false, false, ["time=00:00:10.00".toList], false, true⟩⟩
          "movie.mp4".toList 1024 ⟨NewProgress, []⟩).1 "job" = [0] ++ 100 :: [-1]
      ∧ (((100 : Int) = -1 → [(-1 : Int)] = [])
          ∧ ((100 : Int) = 100 → [(-1 : Int)] = [] ∨ [(-1 : Int)] = [100] ∨ [(-1 : Int)] = [-1])) :=
  ⟨by decide,
   C6_final_write_is_last goAmd64 NewDefaultConfig
     ⟨⟨"job", false, false, some "10.000000\n".toList⟩, false,
       ⟨false, false, ["time=00:00:10.00".toList], false, true⟩⟩
     "movie.mp4".toList 1024 NewProgress [0] 100 [-1] (by decide)⟩

/-- C7 (as stated, refuted): in a store that holds the record -1 of a failed job,
`GetProgress` gives the same answer, -1, for that job and for an identifier that has no
record. -/
theorem C7_unknown_equals_failed :
    (Progress.Get ⟨[("failed-job", -1)]⟩ "failed-job" = (-1, true))
      ∧ (Progress.Get ⟨[("failed-job", -1)]⟩ "no-such-job" = (0, false))
      ∧ GetProgress ⟨⟨[("failed-job", -1)]⟩, []⟩ "failed-job"
          = GetProgress ⟨⟨[("failed-job", -1)]⟩, []⟩ "no-such-job" := by
  decide

/-- C7 (amended): `GetProgress` returns the stored value when a record exists and -1 when
none exists.  The answer for an unknown identifier therefore differs from the answer for
every record whose value is not -1, and is the answer for a record that holds -1. -/
theorem C7_get_progress (w : World) (videoID other : String) :
    ((w.progress.Get videoID).2 = true → GetProgress w videoID = (w.progress.Get videoID).1)
      ∧ ((w.progress.Get videoID).2 = false → GetProgress w videoID = -1)
      ∧ ((w.progress.Get videoID).2 = true → (w.progress.Get other).2 = false →
          (GetProgress w videoID ≠ GetProgress w other ↔ (w.progress.Get videoID).1 ≠ -1)) := by
  have hknown : (w.progress.Get videoID).2 = true →
      GetProgress w videoID = (w.progress.Get videoID).1 := by
    intro h
    simp [GetProgress, h]
  have hunknown : ∀ x, (w.progress.Get x).2 = false → GetProgress w x = -1 := by
    intro x h
    simp [GetProgress, h]
  refine ⟨hknown, hunknown videoID, ?_⟩
  intro h1 h2
  rw [hknown h1, hunknown other h2]

/-- C8: the progress store is a map.  After `Update(id, v)`, `Get(id)` returns `(v, true)`
whatever the store held, and `Get` of any other identifier returns what it returned
before; on the store of `NewProgress`, `Get` returns not-found for every identifier. -/
theorem C8_store_is_a_map (p : Progress) (id other : String) (v : Int) :
    (p.Update id v).Get id = (v, true)
      ∧ (other ≠ id → (p.Update id v).Get other = p.Get other)
      ∧ (NewProgress.Get other).2 = false := by
  refine ⟨?_, ?_, rfl⟩
  · rw [Progress.get_update]; simp
  · intro h
    rw [Progress.get_update]; simp [h]

/-- The error exits of `transcodeVideo`: when it takes one of them (`os.MkdirAll` or
`Transcode` returned an error; in terms of the environment, `transcodeVideo_failed_iff`),
the history of writes after it is the history before it, then percentages within 1..100
under the job's identifier, then, last, the write of -1. -/
theorem transcodeVideo_error_exit_writes (go : GoEnv) (mkdirErr : Bool) (run : FFmpegRun)
    (videoID : String) (durationMs : Int) (w : World)
    (hfail : (transcodeVideo go mkdirErr run videoID durationMs w).2 = .failed) :
    ∃ ps : List Int, (∀ x ∈ ps, 1 ≤ x ∧ x ≤ 100) ∧
      (transcodeVideo go mkdirErr run videoID durationMs w).1.writes
        = w.writes ++ (ps.map fun x => (videoID, x)) ++ [(videoID, -1)] := by
  obtain ⟨es, _, hb, hw⟩ := transcodeVideo_writes go mkdirErr run videoID durationMs w
  refine ⟨es, fun x hx => ⟨by have := (hb x hx).1; omega, (hb x hx).2⟩, ?_⟩
  rw [hw, hfail]
  rfl

/-- C9 (code defect): a background run whose child process exits non-zero, or whose output
cannot be read to the end, does not always end with the write of -1.  When the output
holds the line `time=`, the loop body panics before `scanner.Err` and `cmd.Wait` are
reached, and `transcodeVideo` writes nothing more: with the single line `time=` it writes
nothing at all, whatever the Go implementation, the identifier, the duration and the
state; with the lines `time=00:00:04.00` and `time=` and total duration 10000 ms its only
and last write is 40. -/
theorem C9_panic_leaves_no_failure_write :
    (∀ (go : GoEnv) (videoID : String) (durationMs : Int) (w : World),
        transcodeVideo go false ⟨false, false, ["time=".toList], false, true⟩
          videoID durationMs w = (w, .panic))
      ∧ (transcodeVideo goAmd64 false
          ⟨false, false, ["time=00:00:04.00".toList, "time=".toList], false, true⟩
          "job" 10000 ⟨NewProgress, []⟩).2 = .panic
      ∧ (transcodeVideo goAmd64 false
          ⟨false, false, ["time=00:00:04.00".toList, "time=".toList], false, true⟩
          "job" 10000 ⟨NewProgress, []⟩).1.writes = [("job", 40)]
      ∧ (transcodeVideo goAmd64 false
          ⟨false, false, ["time=00:00:04.00".toList, "time=".toList], false, true⟩
          "job" 10000 ⟨NewProgress, []⟩).1.progress.Get "job" = (40, true)
      ∧ (transcodeVideo goAmd64 false
          ⟨false, false, ["time=00:00:04.00".toList, "time=".toList], true, false⟩
          "job" 10000 ⟨NewProgress, []⟩).1.writes = [("job", 40)] :=
  ⟨fun _ _ _ _ => rfl, by decide, by decide, by decide, by decide⟩

/-- C10: when the transcode succeeds (`transcodeVideo` takes its last exit, `Transcode`
having returned nil), the values written under the job's identifier, from the 0 of
`ProcessVideo` on, are non-decreasing, start with 0 and end with 100. -/
theorem C10_successful_run_nondecreasing (go : GoEnv) (cfg : Config) (env : JobEnv)
    (filename : List Char) (fileSize : Int) (p : Progress)
    (hok : (runJob go cfg env filename fileSize ⟨p, []⟩).2 = some .completed) :
    (World.valuesWritten (runJob go cfg env filename fileSize ⟨p, []⟩).1
        env.upload.uuid).Pairwise (· ≤ ·)
      ∧ (World.valuesWritten (runJob go cfg env filename fileSize ⟨p, []⟩).1
          env.upload.uuid).head? = some 0
      ∧ (World.valuesWritten (runJob go cfg env filename fileSize ⟨p, []⟩).1
          env.upload.uuid).getLast? = some 100 := by
  rcases runJob_values go cfg env filename fileSize p with ⟨hnone, _⟩ | ⟨o, es, ho, hinc, hb, hvals⟩
  · rw [hnone] at hok
    cases hok
  · rw [ho] at hok
    cases hok
    rw [hvals]
    refine ⟨?_, rfl, ?_⟩
    · simp only [JobOutcome.finalWrite, List.cons_append, List.pairwise_cons,
        List.pairwise_append, List.mem_append, List.mem_singleton]
      refine ⟨?_, hinc.imp (fun h => le_of_lt h), by simp, ?_⟩
      · rintro x (hx | rfl)
        · exact le_of_lt (hb x hx).1
        · decide
      · intro a ha b hb1
        rw [hb1]
        exact (hb a ha).2
    · exact List.getLast?_concat ((0 : Int) :: es)

/-- C10 at a concrete run: readings of 40, 35 and 100 percent and exit status 0 give the
writes 0, 40, 100, 100. -/
theorem C10_successful_run_witness :
    World.valuesWritten
        (runJob goAmd64 NewDefaultConfig
          ⟨⟨"job", false, false, some "10.000000\n".toList⟩, false,
            ⟨false, false, ["time=00:00:04.00".toList, "time=00:00:03.50".toList,
              "time=00:00:10.00".toList], false, false⟩⟩
          "movie.MKV".toList 1024 ⟨NewProgress, []⟩).1 "job" = [0, 40, 100, 100]
      ∧ (World.valuesWritten
            (runJob goAmd64 NewDefaultConfig
              ⟨⟨"job", false, false, some "10.000000\n".toList⟩, false,
                ⟨false, false, ["time=00:00:04.00".toList, "time=00:00:03.50".toList,
                  "time=00:00:10.00".toList], false, false⟩⟩
              "movie.MKV".toList 1024 ⟨NewProgress, []⟩).1 "job").Pairwise (· ≤ ·) :=
  ⟨by decide,
   (C10_successful_run_nondecreasing goAmd64 NewDefaultConfig
     ⟨⟨"job", false, false, some "10.000000\n".toList⟩, false,
       ⟨false, false, ["time=00:00:04.00".toList, "time=00:00:03.50".toList,
         "time=00:00:10.00".toList], false, false⟩⟩
     "movie.MKV".toList 1024 NewProgress (by decide)).1⟩

/-! ## Rejected and accepted uploads -/

/-- The call `ProcessVideo` returns an error exactly when one of its checks or external
steps fails. -/
theorem ProcessVideo_err_iff (go : GoEnv) (cfg : Config) (env : UploadEnv)
    (filename : List Char) (fileSize : Int) (w : World) :
    (ProcessVideo go cfg env filename fileSize w).err ≠ none ↔
      (fileSize > cfg.MaxFileSize ∨ Ext filename = [] ∨
        (ToLower go (Ext filename)).drop 1 ∉ cfg.AllowedFileTypes ∨
        env.createErr = true ∨ env.copyErr = true ∨ GetVideoDuration go env.ffprobe = none) := by
  unfold ProcessVideo
  rw [ProcessVideo.validate_eq]
  by_cases h1 : fileSize > cfg.MaxFileSize
  · simp [h1]
  · by_cases h2 : Ext filename = []
    · simp [h1, h2]
    · by_cases h3 : (ToLower go (Ext filename)).drop 1 ∈ cfg.AllowedFileTypes
      · simp only [h1, h2, h3, if_false, if_true, not_true_eq_false, false_or]
        cases env.createErr <;> cases env.copyErr <;>
          cases GetVideoDuration go env.ffprobe <;> simp
      · rw [if_neg h1, if_neg h2, if_neg h3]
        exact ⟨fun _ => Or.inr (Or.inr (Or.inl h3)), fun _ => by simp⟩

/-! ## The argument list -/

theorem Transcode.filterLoop_eq (rs : List Rendition) (i : Nat) (acc : List (List Char)) :
    Transcode.filterLoop rs i acc =
      acc ++ (List.range rs.length).map fun k =>
        "[v".toList ++ Itoa ((i + k : Nat) : Int) ++ "]".toList := by
  induction rs generalizing i acc with
  | nil => simp [Transcode.filterLoop]
  | cons r rest ih =>
    rw [Transcode.filterLoop, ih, List.length_cons, List.range_succ_eq_map, List.map_cons,
      List.map_map, List.append_assoc]
    congr 1
    simp only [List.singleton_append, Nat.add_zero, List.cons.injEq, true_and]
    apply List.map_congr_left
    intro k _
    simp only [Function.comp, Nat.succ_eq_add_one]
    rw [Nat.add_assoc, Nat.add_comm 1 k]

theorem Transcode.mapLoop_eq (rs : List Rendition) (i : Nat) (acc : List (List Char)) :
    Transcode.mapLoop rs i acc =
      acc ++ (rs.enumFrom i).flatMap fun p => renditionArgs p.1 p.2 := by
  induction rs generalizing i acc with
  | nil => simp [Transcode.mapLoop]
  | cons r rest ih =>
    rw [Transcode.mapLoop, ih, List.enumFrom_cons, List.flatMap_cons, List.append_assoc]
    rfl

/-! ## The elapsed time of a line, the percentages of a call -/

/-- The loop body in terms of the elapsed time: when `currentMs` is computed for a line,
the body compares its percentage with `lastProgress`; when none is computed and the body
does not panic, it skips the line. -/
theorem Transcode.scanLine_of_lineCurrentMs (go : GoEnv) (durationMs lastProgress : Int)
    (line : List Char) :
    Transcode.scanLine go durationMs lastProgress line =
      match Transcode.lineCurrentMs go line with
      | some currentMs =>
        if Transcode.percentage go currentMs durationMs > lastProgress then
          .emit (Transcode.percentage go currentMs durationMs)
        else .skip
      | none =>
        match afterFirst "time=".toList line with
        | none => .skip
        | some rest => if Fields rest = [] then .panic else .skip := by
  unfold Transcode.scanLine Transcode.lineCurrentMs
  cases h1 : afterFirst "time=".toList line with
  | none => rfl
  | some rest =>
    simp only
    cases h2 : Fields rest with
    | nil => simp
    | cons timeStr fs =>
      simp only
      split
      · split <;> simp_all
      · simp_all

theorem foldl_record (l acc : List Int) : l.foldl (fun s p => s ++ [p]) acc = acc ++ l := by
  induction l generalizing acc with
  | nil => simp
  | cons x xs ih => simp [ih]

/-- The percentages a call of `Transcode` emits: none when the pipe or the child process
cannot be started, otherwise those of the loop started from `lastProgress = 0`. -/
theorem Transcode.emitted_eq (go : GoEnv) (run : FFmpegRun) (durationMs : Int) :
    Transcode.emitted go run durationMs =
      if run.pipeErr = true ∨ run.startErr = true then []
      else (Transcode.scanEmitted go durationMs run.lines 0).1 := by
  unfold Transcode.emitted Transcode
  rw [Transcode.scan_eq_foldl]
  simp only [foldl_record, List.nil_append]
  cases run.pipeErr <;> cases run.startErr <;>
    cases (Transcode.scanEmitted go durationMs run.lines 0).2 <;>
    cases run.scanErr <;> cases run.waitErr <;> simp

/-- The state in which `Transcode` leaves its callback: the callback applied, in order,
to the percentages the call emits. -/
theorem Transcode_fst {σ : Type} (go : GoEnv) (run : FFmpegRun) (opts : TranscodeOptions σ)
    (st : σ) :
    (Transcode go run opts st).1 =
      (Transcode.emitted go run opts.DurationMs).foldl
        (fun s p => opts.OnProgress s opts.VideoID p) st := by
  rw [Transcode.emitted_eq]
  unfold Transcode
  rw [Transcode.scan_eq_foldl]
  cases run.pipeErr <;> cases run.startErr <;>
    cases (Transcode.scanEmitted go opts.DurationMs run.lines 0).2 <;>
    cases run.scanErr <;> cases run.waitErr <;> simp

theorem Transcode.emitted_bounds (go : GoEnv) (run : FFmpegRun) (durationMs : Int) :
    ∀ x ∈ Transcode.emitted go run durationMs, 0 < x ∧ x ≤ 100 := by
  rw [Transcode.emitted_eq]
  split
  · intro x hx
    simp at hx
  · exact Transcode.scanEmitted_bounds go durationMs run.lines 0

theorem Transcode.emitted_pairwise (go : GoEnv) (run : FFmpegRun) (durationMs : Int) :
    (Transcode.emitted go run durationMs).Pairwise (· < ·) := by
  rw [Transcode.emitted_eq]
  split
  · exact List.Pairwise.nil
  · exact Transcode.scanEmitted_pairwise go durationMs run.lines 0

/-- On a strictly increasing sequence that starts above `lastProgress`, the closure of
`transcodeVideo` and the callback without the test go through the same states. -/
theorem transcodeVideo.OnProgress_eq_storeAlways (videoID : String) (es : List Int)
    (st : ClosureState) (hgt : ∀ x ∈ es, st.lastProgress < x) (hinc : es.Pairwise (· < ·)) :
    es.foldl (fun s p => transcodeVideo.OnProgress s videoID p) st
      = es.foldl (fun s p => transcodeVideo.storeAlways s videoID p) st := by
  induction es generalizing st with
  | nil => rfl
  | cons x xs ih =>
    have hx : st.lastProgress < x := hgt x (List.mem_cons_self _ _)
    have hstep : transcodeVideo.OnProgress st videoID x = transcodeVideo.storeAlways st videoID x := by
      simp [transcodeVideo.OnProgress, transcodeVideo.storeAlways, hx]
    simp only [List.foldl_cons, hstep]
    exact ih (transcodeVideo.storeAlways st videoID x)
      (fun y hy => List.rel_of_pairwise_cons hinc hy) (List.Pairwise.of_cons hinc)

/-- The store writes of the progress path of `transcodeVideo`: the percentages `Transcode`
emits, each under the job's identifier. -/
theorem transcodeVideo.progress_writes (go : GoEnv) (run : FFmpegRun) (videoID : String)
    (durationMs : Int) (w : World) :
    (Transcode go run ⟨videoID, transcodeVideo.OnProgress, durationMs⟩ ⟨0, w⟩).1.world.writes
      = w.writes ++ (Transcode.emitted go run durationMs).map fun p => (videoID, p) := by
  rw [Transcode_fst]
  simp only
  rw [transcodeVideo.OnProgress_foldl videoID (Transcode.emitted go run durationMs) 0 w
    (fun x hx => (Transcode.emitted_bounds go run durationMs x hx).1)
    (Transcode.emitted_pairwise go run durationMs), World.writes_foldl]

/-! ## The claims, continued -/

/-- C11: when `ProcessVideo` rejects an upload (the size is over the maximum, the name has
no extension, the extension is not allowed, the file cannot be created or copied, or the
duration probe fails), it returns an error with the empty identifier, starts no
goroutine, and leaves the store and its history exactly as they were. -/
theorem C11_rejected_upload_leaves_store (go : GoEnv) (cfg : Config) (env : UploadEnv)
    (filename : List Char) (fileSize : Int) (w : World)
    (hrej : fileSize > cfg.MaxFileSize ∨ Ext filename = [] ∨
        (ToLower go (Ext filename)).drop 1 ∉ cfg.AllowedFileTypes ∨
        env.createErr = true ∨ env.copyErr = true ∨ GetVideoDuration go env.ffprobe = none) :
    ∃ e, ProcessVideo go cfg env filename fileSize w = ⟨w, "", some e, none⟩ := by
  have herr := (ProcessVideo_err_iff go cfg env filename fileSize w).mpr hrej
  rcases ProcessVideo_cases go cfg env filename fileSize w with ⟨e, he⟩ | ⟨path, d, hd⟩
  · exact ⟨e, he⟩
  · rw [hd] at herr
    exact absurd rfl herr

/-- C11 at a concrete upload: a file of 600 MB is over the default maximum of 500 MB; the
call returns the error "file too large", and a store that holds a record keeps it as it
is. -/
theorem C11_rejected_upload_witness :
    (600 * 1024 * 1024 : Int) > NewDefaultConfig.MaxFileSize
      ∧ ∃ e, ProcessVideo goAmd64 NewDefaultConfig ⟨"job", false, false, some "10.0".toList⟩
          "movie.mp4".toList (600 * 1024 * 1024) ⟨⟨[("old", 40)]⟩, []⟩
            = ⟨⟨⟨[("old", 40)]⟩, []⟩, "", some e, none⟩ :=
  ⟨by decide,
   C11_rejected_upload_leaves_store goAmd64 NewDefaultConfig
     ⟨"job", false, false, some "10.0".toList⟩ "movie.mp4".toList (600 * 1024 * 1024)
     ⟨⟨[("old", 40)]⟩, []⟩ (Or.inl (by decide))⟩

/-- C12: when `ProcessVideo` accepts an upload (it returns no error), the state it leaves,
before any step of the goroutine it has started, holds the value 0 under the identifier
it returns: `Get` finds the record, and `GetProgress` returns 0. -/
theorem C12_accepted_upload_reads_zero (go : GoEnv) (cfg : Config) (env : UploadEnv)
    (filename : List Char) (fileSize : Int) (w : World)
    (hacc : (ProcessVideo go cfg env filename fileSize w).err = none) :
    (ProcessVideo go cfg env filename fileSize w).videoID = env.uuid
      ∧ (ProcessVideo go cfg env filename fileSize w).world.progress.Get
          (ProcessVideo go cfg env filename fileSize w).videoID = (0, true)
      ∧ GetProgress (ProcessVideo go cfg env filename fileSize w).world
          (ProcessVideo go cfg env filename fileSize w).videoID = 0 := by
  rcases ProcessVideo_cases go cfg env filename fileSize w with ⟨e, he⟩ | ⟨path, d, hd⟩
  · rw [he] at hacc
    cases hacc
  · rw [hd]
    have hget : (World.Update w env.uuid 0).progress.Get env.uuid = (0, true) := by
      simp [World.Update, Progress.get_update]
    refine ⟨rfl, hget, ?_⟩
    simp only [GetProgress, hget]
    rfl

/-- C12 at a concrete upload: `movie.MKV` of 1024 bytes with a probe result of 10 seconds
is accepted, and the poll of its identifier returns 0. -/
theorem C12_accepted_upload_witness :
    (ProcessVideo goAmd64 NewDefaultConfig ⟨"job", false, false, some "10.000000\n".toList⟩
        "movie.MKV".toList 1024 ⟨NewProgress, []⟩).err = none
      ∧ GetProgress
          (ProcessVideo goAmd64 NewDefaultConfig ⟨"job", false, false, some "10.000000\n".toList⟩
            "movie.MKV".toList 1024 ⟨NewProgress, []⟩).world
          (ProcessVideo goAmd64 NewDefaultConfig ⟨"job", false, false, some "10.000000\n".toList⟩
            "movie.MKV".toList 1024 ⟨NewProgress, []⟩).videoID = 0 :=
  ⟨by decide,
   (C12_accepted_upload_reads_zero goAmd64 NewDefaultConfig
     ⟨"job", false, false, some "10.000000\n".toList⟩ "movie.MKV".toList 1024
     ⟨NewProgress, []⟩ (by decide)).2.2⟩

/-- C13: for every rendition ladder, of length N, the argument list of `Transcode` is the
fixed head, then `-filter_complex` with the filter `[0:v]split=N[v0]...[vN-1]`, then, for
the renditions in ladder order with their indices i = 0..N-1, the eight arguments
`-map [vi] -map 0:a? -b:v:i BITRATE -s:v:i WIDTHxHEIGHT`, then the HLS tail.  For the
ladder 640x360, 854x480, 1280x720 the list is written out: three video mappings, in
ladder order. -/
theorem C13_argument_list :
    (∀ (Join : List Char → List Char → List Char) (InputPath OutputDir : List Char)
        (Config : FFmpegConfig),
        Transcode.cmdArgs Join InputPath OutputDir Config =
          ["-y".toList, "-i".toList, InputPath, "-stats".toList, "-stats_period".toList,
           "0.1".toList, "-loglevel".toList, "info".toList, "-preset".toList,
           Config.PresetSpeed, "-g".toList, "48".toList, "-sc_threshold".toList, "0".toList]
          ++ ["-filter_complex".toList,
              "[0:v]split=".toList ++ Itoa Config.Renditions.length ++
                ((List.range Config.Renditions.length).map fun (i : Nat) =>
                  "[v".toList ++ Itoa i ++ "]".toList).flatten]
          ++ (Config.Renditions.enum.flatMap fun p => renditionArgs p.1 p.2)
          ++ ["-f".toList, "hls".toList, "-hls_time".toList, Itoa Config.SegmentDuration,
              "-hls_playlist_type".toList, "vod".toList, "-master_pl_name".toList,
              "master.m3u8".toList, Join OutputDir "output_%v.m3u8".toList])
      ∧ (Transcode.cmdArgs (fun dir name => dir ++ '/' :: name) "videos/job.mp4".toList
            "output/job".toList
            ⟨[⟨640, 360, "800k".toList⟩, ⟨854, 480, "1200k".toList⟩,
              ⟨1280, 720, "2000k".toList⟩], 4, "fast".toList⟩).map String.mk =
          ["-y", "-i", "videos/job.mp4", "-stats", "-stats_period", "0.1", "-loglevel", "info",
           "-preset", "fast", "-g", "48", "-sc_threshold", "0",
           "-filter_complex", "[0:v]split=3[v0][v1][v2]",
           "-map", "[v0]", "-map", "0:a?", "-b:v:0", "800k", "-s:v:0", "640x360",
           "-map", "[v1]", "-map", "0:a?", "-b:v:1", "1200k", "-s:v:1", "854x480",
           "-map", "[v2]", "-map", "0:a?", "-b:v:2", "2000k", "-s:v:2", "1280x720",
           "-f", "hls", "-hls_time", "4", "-hls_playlist_type", "vod",
           "-master_pl_name", "master.m3u8", "output/job/output_%v.m3u8"] := by
  refine ⟨?_, by decide⟩
  intro Join InputPath OutputDir Config
  unfold Transcode.cmdArgs
  simp only [Transcode.filterLoop_eq, Transcode.mapLoop_eq, List.nil_append, Nat.zero_add,
    List.enum]

/-- C14: for every filename that has an extension whose lower-case form, the dot
stripped, is in the allow-list, and every size not over the maximum, the validation phase
accepts and goes on with that lower-case form. -/
theorem C14_extension_match_ignores_case (go : GoEnv) (cfg : Config) (filename : List Char)
    (fileSize : Int) (hsize : fileSize ≤ cfg.MaxFileSize) (hext : Ext filename ≠ [])
    (hmem : (ToLower go (Ext filename)).drop 1 ∈ cfg.AllowedFileTypes) :
    ProcessVideo.validate go cfg filename fileSize
      = .ok ((ToLower go (Ext filename)).drop 1) := by
  rw [ProcessVideo.validate_eq]
  have h1 : ¬ fileSize > cfg.MaxFileSize := by omega
  simp only [h1, hext, hmem, if_false, if_true]

/-- C14 at the name `movie.MKV` with the default allow-list mp4, mov, avi, mkv: the
extension `.MKV` becomes `mkv`, which is allowed, and validation accepts with `mkv`. -/
theorem C14_movie_MKV_witness :
    (ToLower goAmd64 (Ext "movie.MKV".toList)).drop 1 = "mkv".toList
      ∧ ProcessVideo.validate goAmd64 NewDefaultConfig "movie.MKV".toList 1024
          = .ok ((ToLower goAmd64 (Ext "movie.MKV".toList)).drop 1) :=
  ⟨by decide,
   C14_extension_match_ignores_case goAmd64 NewDefaultConfig "movie.MKV".toList 1024
     (by decide) (by decide) (by decide)⟩

/-- C15 (as stated, refuted): with total duration 10000 ms the line `time=00:00:05.xx` is
not discarded.  Its third component `05.xx` is not a number, and neither is the fraction
`xx`; the code parses the seconds `05` and ignores the error of the fraction, which
counts as 0, and the line emits 50. -/
theorem C15_unparsed_fraction_not_discarded :
    (ParseFloat "05.xx".toList).2 = true
      ∧ (ParseFloat "xx".toList).2 = true
      ∧ Transcode.scanLine goAmd64 10000 0 "time=00:00:05.xx".toList = .emit 50 := by
  decide

/-- C15 (amended): a line whose time string, the first field after `time=`, does not split
at `:` into exactly three parts, or in which the hours, the minutes or the part of the
third component before its first `.` does not parse (`ParseFloat` returns an error), causes
no update.  The error of the fractional part is not looked at. -/
theorem C15_checked_parts_decide (go : GoEnv) (durationMs lastProgress : Int)
    (line rest timeStr : List Char) (fs : List (List Char))
    (htime : afterFirst "time=".toList line = some rest)
    (hfield : Fields rest = timeStr :: fs)
    (hbad : (∀ p0 p1 p2, Split timeStr ':' ≠ [p0, p1, p2]) ∨
      ∃ p0 p1 p2, Split timeStr ':' = [p0, p1, p2] ∧
        ((go.ParseFloat p0).2 = true ∨ (go.ParseFloat p1).2 = true ∨
          (go.ParseFloat ((Split p2 '.').headD [])).2 = true)) :
    Transcode.scanLine go durationMs lastProgress line = .skip := by
  unfold Transcode.scanLine
  rw [htime]
  simp only [hfield]
  rcases hbad with hne | ⟨p0, p1, p2, hsplit, herr⟩
  · split
    · rename_i q0 q1 q2 hq
      exact absurd hq (hne q0 q1 q2)
    · rfl
  · rw [hsplit]
    simp only
    have : ((go.ParseFloat p0).2 || (go.ParseFloat p1).2 ||
        (go.ParseFloat ((Split p2 '.').headD [])).2) = true := by
      rcases herr with h | h | h <;> rw [h]
      · rfl
      · exact Bool.or_eq_true_iff.mpr (Or.inl (Bool.or_true _))
      · exact Bool.or_true _
    rw [if_pos this]

/-- C15 (amended) at the line `time=00:0x:05.5`: the minutes `0x` do not parse, and the
line causes no update. -/
theorem C15_checked_parts_witness :
    afterFirst "time=".toList "time=00:0x:05.5".toList = some "00:0x:05.5".toList
      ∧ Fields "00:0x:05.5".toList = ["00:0x:05.5".toList]
      ∧ Transcode.scanLine goAmd64 10000 0 "time=00:0x:05.5".toList = .skip :=
  ⟨by decide, by decide,
   C15_checked_parts_decide goAmd64 10000 0 "time=00:0x:05.5".toList "00:0x:05.5".toList
     "00:0x:05.5".toList [] (by decide) (by decide)
     (Or.inr ⟨"00".toList, "0x".toList, "05.5".toList, by decide, Or.inr (Or.inl (by decide))⟩)⟩

/-- C16 (code defect): the elapsed time is computed in float64 and truncated.  For the
line `time=00:00:01.36` the sum 1 + 36/100 times 1000 falls just below 1360 and `int64`
truncates it to 1359, where the formula `H*3600000 + M*60000 + S*1000 + 10*F` gives 1360;
with total duration 1360 ms the line therefore yields 99 percent, not 100.  The lines
`time=00:00:06.72` and `time=00:00:06` do give 6720 and 6000. -/
theorem C16_elapsed_is_float_arithmetic :
    Transcode.lineCurrentMs goAmd64 "time=00:00:01.36".toList = some 1359
      ∧ (0 * 3600000 + 0 * 60000 + 1 * 1000 + 10 * 36 : Int) = 1360
      ∧ Transcode.scanLine goAmd64 1360 0 "time=00:00:01.36".toList = .emit 99
      ∧ Transcode.lineCurrentMs goAmd64 "time=00:00:06.72".toList = some 6720
      ∧ Transcode.lineCurrentMs goAmd64 "time=00:00:06".toList = some 6000 := by
  decide

/-- C17: for every Go implementation, every behaviour of the child process and every
total duration, each percentage `Transcode` passes to `OnProgress` is at least 1 and at
most 100, and the writes the closure of `transcodeVideo` makes are such percentages under
the job's identifier: the progress path writes no 0, no negative value, no -1.  With
total duration 10000 ms, readings of 4, 3.5 and 12 seconds give the percentages 40 and
100. -/
theorem C17_progress_values_in_range :
    (∀ (go : GoEnv) (run : FFmpegRun) (durationMs : Int),
        ∀ x ∈ Transcode.emitted go run durationMs, 1 ≤ x ∧ x ≤ 100)
      ∧ (∀ (go : GoEnv) (run : FFmpegRun) (videoID : String) (durationMs : Int) (w : World),
          ∃ ps : List Int, (∀ x ∈ ps, 1 ≤ x ∧ x ≤ 100) ∧
            (Transcode go run ⟨videoID, transcodeVideo.OnProgress, durationMs⟩
                ⟨0, w⟩).1.world.writes
              = w.writes ++ ps.map fun p => (videoID, p))
      ∧ Transcode.emitted goAmd64
          ⟨false, false, ["time=00:00:04.00".toList, "time=00:00:03.50".toList,
            "time=00:00:12.00".toList], false, false⟩ 10000 = [40, 100] := by
  have hb : ∀ (go : GoEnv) (run : FFmpegRun) (durationMs : Int),
      ∀ x ∈ Transcode.emitted go run durationMs, 1 ≤ x ∧ x ≤ 100 := by
    intro go run durationMs x hx
    have h := Transcode.emitted_bounds go run durationMs x hx
    exact ⟨by omega, h.2⟩
  refine ⟨hb, ?_, by decide⟩
  intro go run videoID durationMs w
  exact ⟨Transcode.emitted go run durationMs, hb go run durationMs,
    transcodeVideo.progress_writes go run videoID durationMs w⟩

/-- C18: the test `percent > lastProgress` in the closure of `transcodeVideo` never
suppresses anything.  For every Go implementation, behaviour of the child process,
identifier, total duration and state, `Transcode` leaves the closure in the state in which
it leaves the callback that stores every percentage, and the progress values written to
the store are exactly the percentages `Transcode` emits, in order. -/
theorem C18_second_filter_is_redundant :
    (∀ (go : GoEnv) (run : FFmpegRun) (videoID : String) (durationMs : Int) (w : World),
        (Transcode go run ⟨videoID, transcodeVideo.OnProgress, durationMs⟩ ⟨0, w⟩).1
            = (Transcode go run ⟨videoID, transcodeVideo.storeAlways, durationMs⟩ ⟨0, w⟩).1
          ∧ (Transcode go run ⟨videoID, transcodeVideo.OnProgress, durationMs⟩
                ⟨0, w⟩).1.world.writes
              = w.writes ++ (Transcode.emitted go run durationMs).map fun p => (videoID, p))
      ∧ (Transcode goAmd64
            ⟨false, false, ["time=00:00:04.00".toList, "time=00:00:03.50".toList,
              "time=00:00:12.00".toList], false, false⟩
            ⟨"job", transcodeVideo.OnProgress, 10000⟩ ⟨0, ⟨NewProgress, []⟩⟩).1.world.writes
          = [("job", 40), ("job", 100)] := by
  refine ⟨?_, by decide⟩
  intro go run videoID durationMs w
  refine ⟨?_, transcodeVideo.progress_writes go run videoID durationMs w⟩
  rw [Transcode_fst, Transcode_fst]
  exact transcodeVideo.OnProgress_eq_storeAlways videoID _ ⟨0, w⟩
    (fun x hx => (Transcode.emitted_bounds go run durationMs x hx).1)
    (Transcode.emitted_pairwise go run durationMs)

end VideoStream
